import Mathlib

/-!
# Verification of `scrape_datacentermap.py`

A shallow embedding of the crawl/extraction core of the repository
`csv-copy` (source file `src/scrape_datacentermap.py`), together with
proofs settling the frozen claims about it.

Strings are modelled as `List Char`.  The Python standard-library URL
collaborator (`urllib.parse`: `urlparse`, `urljoin`, `urlunparse`, ...)
is modelled faithfully after CPython 3.11 (`Lib/urllib/parse.py`), since
the repository's `normalize_url`, `classify_location_url` and
`extract_location_from_url` are built directly on it.  Two guards of
CPython's `urlsplit` are omitted: the `ValueError` raised for a netloc
with unbalanced square brackets (and the bracketed-host validation), and
`_checknetloc`'s rejection of certain non-ASCII netlocs; no URL in this
development contains square brackets or non-ASCII characters.  Character
predicates (`str.isalpha`, `str.lower`, ...) are modelled on ASCII.

The HTML parsing collaborator (BeautifulSoup) is modelled by the data it
hands to the core: a parsed page provides the decoded JSON-LD payloads
(`parse_json_ld` output) and the list of anchor elements with an `href`
attribute, where each anchor carries its href, its visible text
(`get_text(" ", strip=True)` output) and the text of the address-like
element found in its container, if any.  The HTTP fetcher collaborator is
an oracle `List Char → Option Page`; `none` models a fetch failure of the
kinds caught by the crawl loop (`HTTPError`/`URLError`).
-/

namespace Scrape

/-- Shorthand turning a Lean string literal into the `List Char` the model
computes with. -/
def s2l (s : String) : List Char := s.data

/-! ## Character-level utilities (ASCII models of the Python predicates) -/

/-- Characters stripped by CPython's WHATWG pre-processing:
C0 controls and space (codepoints `0x00`–`0x20`). -/
def isC0orSpace (c : Char) : Bool := c.toNat ≤ 32

/-- CPython's `_UNSAFE_URL_BYTES_TO_REMOVE`: tab, CR, LF. -/
def isBadUrlByte (c : Char) : Bool := c = '\t' || c = '\r' || c = '\n'

/-- Python whitespace for `str.split()` / `str.strip()` (ASCII part):
space, tab, LF, CR, vertical tab, form feed. -/
def isPySpace (c : Char) : Bool :=
  c = ' ' || c = '\t' || c = '\n' || c = '\r' || c.toNat = 11 || c.toNat = 12

/-- `str.lower` on ASCII. -/
def lowerL (s : List Char) : List Char := s.map Char.toLower

/-- `str.lstrip(_WHATWG_C0_CONTROL_OR_SPACE)`. -/
def lstripC0 (s : List Char) : List Char := s.dropWhile isC0orSpace

/-- `str.strip(_WHATWG_C0_CONTROL_OR_SPACE)`. -/
def stripC0 (s : List Char) : List Char :=
  ((s.dropWhile isC0orSpace).reverse.dropWhile isC0orSpace).reverse

/-- `str.strip()` (default whitespace strip). -/
def pyStrip (s : List Char) : List Char :=
  ((s.dropWhile isPySpace).reverse.dropWhile isPySpace).reverse

/-- `str.rstrip(c)` for a single character. -/
def pyRstripChar (c : Char) (s : List Char) : List Char :=
  (s.reverse.dropWhile (· = c)).reverse

/-- `str.split()` — split on runs of whitespace, dropping empty pieces. -/
def pysplit : List Char → List (List Char)
  | [] => []
  | c :: cs =>
    if isPySpace c then pysplit cs
    else
      match cs with
      | [] => [[c]]
      | d :: _ =>
        if isPySpace d then [c] :: pysplit cs
        else
          match pysplit cs with
          | w :: ws => (c :: w) :: ws
          | [] => [[c]]

/-- `str.title()` on ASCII: a letter is uppercased after a non-letter and
lowercased after a letter. -/
def pyTitleGo : List Char → Bool → List Char
  | [], _ => []
  | c :: cs, prevAlpha =>
    (if c.isAlpha then (if prevAlpha then c.toLower else c.toUpper) else c)
      :: pyTitleGo cs c.isAlpha

/-- `str.title()` on ASCII. -/
def pyTitle (s : List Char) : List Char := pyTitleGo s false

/-- `" ".join(words)`. -/
def joinWords : List (List Char) → List Char
  | [] => []
  | w :: ws =>
    match ws with
    | [] => w
    | _ :: _ => w ++ ' ' :: joinWords ws

/-- `normalize_whitespace(text)` from the source:
`" ".join(text.split())`. -/
def normalize_whitespace (s : List Char) : List Char :=
  joinWords (pysplit s)

/-! ## List splitting helpers shared by the `urllib.parse` model -/

/-- Split at the first occurrence of `ch`: `some (before, after)`, or
`none` when `ch` does not occur (models `str.split(ch, 1)` /
`str.find(ch)`). -/
def splitFirst (ch : Char) : List Char → Option (List Char × List Char)
  | [] => none
  | c :: cs =>
    if c = ch then some ([], cs)
    else (splitFirst ch cs).map (fun p => (c :: p.1, p.2))

/-- Split at the last `'/'`: `some (prefix including the slash, suffix)`,
or `none` when there is no slash (models `str.rfind('/')`). -/
def splitAtLastSlash : List Char → Option (List Char × List Char)
  | [] => none
  | c :: cs =>
    match splitAtLastSlash cs with
    | some (p, s) => some (c :: p, s)
    | none => if c = '/' then some (['/'], cs) else none

/-- Python `str.split('/')` (always at least one piece). -/
def splitOnSlash : List Char → List (List Char)
  | [] => [[]]
  | c :: cs =>
    if c = '/' then [] :: splitOnSlash cs
    else
      match splitOnSlash cs with
      | s :: rest => (c :: s) :: rest
      | [] => [[c]]

/-- Python `'/'.join(parts)`. -/
def joinSlash (parts : List (List Char)) : List Char :=
  List.intercalate ['/'] parts

/-! ## The `urllib.parse` collaborator model (CPython 3.11) -/

/-- Result of `urlsplit`. -/
structure SplitResult where
  scheme : List Char
  netloc : List Char
  path : List Char
  query : List Char
  fragment : List Char
deriving Repr, DecidableEq

/-- Result of `urlparse`. -/
structure ParseResult where
  scheme : List Char
  netloc : List Char
  path : List Char
  params : List Char
  query : List Char
  fragment : List Char
deriving Repr, DecidableEq

/-- CPython `scheme_chars`: ASCII letters, digits, `+`, `-`, `.`. -/
def isSchemeChar (c : Char) : Bool :=
  c.isAlpha || c.isDigit || c = '+' || c = '-' || c = '.'

/-- Remove the WHATWG-unsafe bytes and left-strip C0 controls/spaces, as
`urlsplit` does to its `url` argument. -/
def cleanUrl (s : List Char) : List Char :=
  (lstripC0 s).filter (fun c => !isBadUrlByte c)

/-- The corresponding cleanup of the `scheme` default argument
(stripped on both ends). -/
def cleanScheme (s : List Char) : List Char :=
  (stripC0 s).filter (fun c => !isBadUrlByte c)

/-- Scheme extraction step of `urlsplit`: if the URL has a `:` at
position `i > 0`, the first character is an ASCII letter and every
character before the `:` is a scheme character, the scheme is the
lowercased prefix; otherwise the default is kept. -/
def splitScheme (defaultScheme url : List Char) : List Char × List Char :=
  match splitFirst ':' url with
  | none => (defaultScheme, url)
  | some (pre, post) =>
    match pre with
    | [] => (defaultScheme, url)
    | c :: rest =>
      if c.isAlpha && rest.all isSchemeChar then (lowerL pre, post)
      else (defaultScheme, url)

/-- Netloc delimiters of `_splitnetloc`. -/
def isNetlocDelim (c : Char) : Bool := c = '/' || c = '?' || c = '#'

/-- `_splitnetloc(url, 2)` after the leading `//` has been dropped. -/
def splitNetloc (rest : List Char) : List Char × List Char :=
  (rest.takeWhile (fun c => !isNetlocDelim c),
   rest.dropWhile (fun c => !isNetlocDelim c))

/-- `urlsplit(url, scheme)` with `allow_fragments=True`.  The
`ValueError` guards for bracketed hosts and non-ASCII netlocs are
omitted (see the module docstring). -/
def urlsplit (url defaultScheme : List Char) : SplitResult :=
  let url0 := cleanUrl url
  let sp := splitScheme (cleanScheme defaultScheme) url0
  let nl := if sp.2.take 2 = ['/', '/'] then splitNetloc (sp.2.drop 2) else ([], sp.2)
  let fr :=
    match splitFirst '#' nl.2 with
    | some ab => ab
    | none => (nl.2, [])
  let qr :=
    match splitFirst '?' fr.1 with
    | some ab => ab
    | none => (fr.1, [])
  ⟨sp.1, nl.1, qr.1, qr.2, fr.2⟩

/-- CPython `uses_params`. -/
def uses_params : List (List Char) :=
  [[], s2l "ftp", s2l "hdl", s2l "prospero", s2l "http", s2l "imap",
   s2l "https", s2l "shttp", s2l "rtsp", s2l "rtsps", s2l "rtspu",
   s2l "sip", s2l "sips", s2l "mms", s2l "sftp", s2l "tel"]

/-- CPython `uses_relative`. -/
def uses_relative : List (List Char) :=
  [[], s2l "ftp", s2l "http", s2l "gopher", s2l "nntp", s2l "imap",
   s2l "wais", s2l "file", s2l "https", s2l "shttp", s2l "mms",
   s2l "prospero", s2l "rtsp", s2l "rtsps", s2l "rtspu", s2l "sftp",
   s2l "svn", s2l "svn+ssh", s2l "ws", s2l "wss"]

/-- CPython `uses_netloc`. -/
def uses_netloc : List (List Char) :=
  [[], s2l "ftp", s2l "http", s2l "gopher", s2l "nntp", s2l "telnet",
   s2l "imap", s2l "wais", s2l "file", s2l "mms", s2l "https", s2l "shttp",
   s2l "snews", s2l "prospero", s2l "rtsp", s2l "rtsps", s2l "rtspu",
   s2l "rsync", s2l "svn", s2l "svn+ssh", s2l "sftp", s2l "nfs",
   s2l "git", s2l "git+ssh", s2l "ws", s2l "wss"]

/-- `_splitparams(url)`: split params off the last path segment — the
first `;` at or after the last `/` (or the first `;` at all when there
is no slash). -/
def splitparams (url : List Char) : List Char × List Char :=
  match splitAtLastSlash url with
  | some (pre, suf) =>
    match splitFirst ';' suf with
    | some (a, b) => (pre ++ a, b)
    | none => (url, [])
  | none =>
    match splitFirst ';' url with
    | some (a, b) => (a, b)
    | none => (url, [])

/-- `urlparse(url, scheme)` with `allow_fragments=True`. -/
def urlparse (url defaultScheme : List Char) : ParseResult :=
  let s := urlsplit url defaultScheme
  if s.scheme ∈ uses_params ∧ ';' ∈ s.path then
    ⟨s.scheme, s.netloc, (splitparams s.path).1, (splitparams s.path).2,
     s.query, s.fragment⟩
  else
    ⟨s.scheme, s.netloc, s.path, [], s.query, s.fragment⟩

/-- The remainder of the URL after `urlsplit`'s scheme extraction. -/
def schemeRest (x d : List Char) : List Char :=
  (splitScheme (cleanScheme d) (cleanUrl x)).2

/-- The (netloc, remainder) pair of `urlsplit`. -/
def netPair (x d : List Char) : List Char × List Char :=
  if (schemeRest x d).take 2 = ['/', '/'] then splitNetloc ((schemeRest x d).drop 2)
  else ([], schemeRest x d)

/-- The (remainder, fragment) pair of `urlsplit`. -/
def fragPair (x d : List Char) : List Char × List Char :=
  match splitFirst '#' (netPair x d).2 with
  | some ab => ab
  | none => ((netPair x d).2, [])

/-- The (path, query) pair of `urlsplit`. -/
def quPair (x d : List Char) : List Char × List Char :=
  match splitFirst '?' (fragPair x d).1 with
  | some ab => ab
  | none => ((fragPair x d).1, [])

/-- `urlunsplit(components)` (CPython 3.11 form: the `//` is also
re-inserted for an empty netloc when the scheme uses a netloc and the
path does not already start with `//`). -/
def urlunsplit (c : SplitResult) : List Char :=
  let url := c.path
  let url :=
    if c.netloc ≠ [] ∨ (c.scheme ≠ [] ∧ c.scheme ∈ uses_netloc ∧ url.take 2 ≠ ['/', '/']) then
      ['/', '/'] ++ c.netloc ++
        (if url ≠ [] ∧ url.take 1 ≠ ['/'] then '/' :: url else url)
    else url
  let url := if c.scheme ≠ [] then c.scheme ++ ':' :: url else url
  let url := if c.query ≠ [] then url ++ '?' :: c.query else url
  if c.fragment ≠ [] then url ++ '#' :: c.fragment else url

/-- `urlunparse(components)`; also the model of
`ParseResult.geturl()`. -/
def urlunparse (c : ParseResult) : List Char :=
  let url := if c.params ≠ [] then c.path ++ ';' :: c.params else c.path
  urlunsplit ⟨c.scheme, c.netloc, url, c.query, c.fragment⟩

/-- `filter(None, segments[1:-1])` assignment in `urljoin`: drop empty
segments, keeping the first and last elements. -/
def filterMiddle : List (List Char) → List (List Char)
  | [] => []
  | [a] => [a]
  | a :: b :: rest =>
    a :: (((b :: rest).dropLast.filter (· ≠ [])) ++ [(b :: rest).getLastD []])

/-- The `resolved_path` loop of `urljoin`: `..` pops (ignoring underflow),
`.` is skipped, other segments are appended. -/
def resolveSegments (acc : List (List Char)) : List (List Char) → List (List Char)
  | [] => acc
  | seg :: rest =>
    if seg = ['.', '.'] then resolveSegments acc.dropLast rest
    else if seg = ['.'] then resolveSegments acc rest
    else resolveSegments (acc ++ [seg]) rest

/-- `urljoin(base, url)` with `allow_fragments=True` (CPython 3.11). -/
def urljoin (base url : List Char) : List Char :=
  if base = [] then url
  else if url = [] then base
  else
    let bp := urlparse base []
    let up := urlparse url bp.scheme
    if up.scheme ≠ bp.scheme ∨ up.scheme ∉ uses_relative then url
    else if up.scheme ∈ uses_netloc ∧ up.netloc ≠ [] then
      urlunparse ⟨up.scheme, up.netloc, up.path, up.params, up.query, up.fragment⟩
    else
      let netloc := if up.scheme ∈ uses_netloc then bp.netloc else up.netloc
      if up.path = [] ∧ up.params = [] then
        let query := if up.query = [] then bp.query else up.query
        urlunparse ⟨up.scheme, netloc, bp.path, bp.params, query, up.fragment⟩
      else
        let base_parts := splitOnSlash bp.path
        let base_parts :=
          if base_parts.getLastD [] ≠ [] then base_parts.dropLast else base_parts
        let segments :=
          if up.path.take 1 = ['/'] then splitOnSlash up.path
          else filterMiddle (base_parts ++ splitOnSlash up.path)
        let resolved := resolveSegments [] segments
        let resolved :=
          if segments.getLastD [] = ['.'] ∨ segments.getLastD [] = ['.', '.'] then
            resolved ++ [[]]
          else resolved
        let path := joinSlash resolved
        let path := if path = [] then ['/'] else path
        urlunparse ⟨up.scheme, netloc, path, up.params, up.query, up.fragment⟩

/-! ## The repository's data model and operations -/

/-- The `DataCenter` dataclass. -/
structure DataCenter where
  name : List Char
  url : List Char
  address : List Char
  city : List Char
  state : List Char
  postal_code : List Char
deriving Repr, DecidableEq

/-- `slug_to_name(slug)`:
`slug.replace("-", " ").strip().title()`. -/
def slug_to_name (slug : List Char) : List Char :=
  pyTitle (pyStrip (slug.map (fun c => if c = '-' then ' ' else c)))

/-- `extract_location_from_url(url)`: `(state, city)` from the 2nd and
3rd non-empty path segments when the first segment is `usa`
(case-insensitively). -/
def extract_location_from_url (url : List Char) : List Char × List Char :=
  let parsed := urlparse url []
  let parts := (splitOnSlash parsed.path).filter (· ≠ [])
  if parts = [] ∨ lowerL (parts.headD []) ≠ s2l "usa" then ([], [])
  else
    (if 2 ≤ parts.length then slug_to_name (parts.getD 1 []) else [],
     if 3 ≤ parts.length then slug_to_name (parts.getD 2 []) else [])

/-- `normalize_url(href, base_url)` from the source: empty href maps to
empty; otherwise `urljoin`, reject non-HTTP(S) schemes, drop query and
fragment, and reassemble with `geturl()`. -/
def normalize_url (href base_url : List Char) : List Char :=
  if href = [] then []
  else
    let joined := urljoin base_url href
    let parsed := urlparse joined []
    if parsed.scheme = s2l "http" ∨ parsed.scheme = s2l "https" then
      urlunparse ⟨parsed.scheme, parsed.netloc, parsed.path, parsed.params, [], []⟩
    else []

/-- `classify_location_url(url, base_netloc)`: `some "state"` for
exactly two non-empty path segments under the `usa` root, `some "city"`
for three or more, `none` otherwise (`None` in Python). -/
def classify_location_url (url base_netloc : List Char) : Option (List Char) :=
  let parsed := urlparse url []
  if parsed.netloc ≠ base_netloc then none
  else
    let parts := (splitOnSlash parsed.path).filter (· ≠ [])
    if parts = [] ∨ lowerL (parts.headD []) ≠ s2l "usa" then none
    else if parts.length = 2 then some (s2l "state")
    else if 3 ≤ parts.length then some (s2l "city")
    else none

/-! ### JSON-LD and the Structured Extractor -/

/-- JSON values, as decoded by `json.loads` inside `parse_json_ld`.  The
repository only ever reads string leaves, so the numeric payload is kept
abstract as an `Int`. -/
inductive Json where
  | null : Json
  | bool (b : Bool) : Json
  | num (n : Int) : Json
  | str (s : List Char) : Json
  | arr (elems : List Json) : Json
  | obj (fields : List (List Char × Json)) : Json

/-- `dict.get(key)` on a JSON object (first matching key; Python dicts
have unique keys). Non-objects have no keys. -/
def jget (j : Json) (key : List Char) : Option Json :=
  match j with
  | .obj fields =>
    match fields.find? (fun f => f.1 = key) with
    | some f => some f.2
    | none => none
  | _ => none

/-- `value.get(key) or ""` where the result is used as a string.  Falsy
values (`None`, `""`, `0`, `False`, `[]`, `{}`) become the empty string;
a missing key too.  A truthy non-string here would make CPython carry a
non-string into the record (for `url`) or raise `AttributeError` inside
`normalize_whitespace` (for the other fields); the `DataCenter`
dataclass declares all fields as `str`, and such entries are modelled as
yielding the empty string, i.e. the entry is dropped by the
`if name and url` guard or the field left empty.  No claim depends on
non-string JSON field values. -/
def jStrOrEmpty (v : Option Json) : List Char :=
  match v with
  | some (.str s) => s
  | _ => []

/-- `item.get("itemListElement", [])` as an iterable of candidate
elements.  A non-list value either iterates over non-dict values (string
characters, dict keys), all of which the `isinstance(element, dict)`
guard discards, or raises `TypeError` in CPython; both produce no
records, modelled as the empty list. -/
def jElems (v : Option Json) : List Json :=
  match v with
  | some (.arr xs) => xs
  | _ => []

/-- The per-entry body of `extract_from_itemlist`'s inner loop: from one
`itemListElement` element, the optional `DataCenter` it contributes. -/
def entryRecord (default_state default_city : List Char) (element : Json) :
    Option DataCenter :=
  match element with
  | .obj _ =>
    match jget element (s2l "item") with
    | some entry =>
      match entry with
      | .obj _ =>
        let name := jStrOrEmpty (jget entry (s2l "name"))
        let url := jStrOrEmpty (jget entry (s2l "url"))
        let addr :=
          match jget entry (s2l "address") with
          | some ad =>
            match ad with
            | .obj _ =>
              (jStrOrEmpty (jget ad (s2l "streetAddress")),
               jStrOrEmpty (jget ad (s2l "addressLocality")),
               jStrOrEmpty (jget ad (s2l "addressRegion")),
               jStrOrEmpty (jget ad (s2l "postalCode")))
            | _ => ([], [], [], [])
          | none => ([], [], [], [])
        if name ≠ [] ∧ url ≠ [] then
          some
            { name := normalize_whitespace name
              url := url
              address := normalize_whitespace addr.1
              city :=
                if normalize_whitespace addr.2.1 = [] then default_city
                else normalize_whitespace addr.2.1
              state :=
                if normalize_whitespace addr.2.2.1 = [] then default_state
                else normalize_whitespace addr.2.2.1
              postal_code := normalize_whitespace addr.2.2.2 }
        else none
      | _ => none
    | none => none
  | _ => none

/-- Is this JSON-LD item an `ItemList`?  (`item.get("@type") != "ItemList"`
skips the item; only a string equal to `"ItemList"` passes.) -/
def isItemList (item : Json) : Bool :=
  match jget item (s2l "@type") with
  | some (.str t) => t = s2l "ItemList"
  | _ => false

/-- `extract_from_itemlist(items, default_state, default_city)`. -/
def extract_from_itemlist (items : List Json)
    (default_state default_city : List Char) : List DataCenter :=
  items.flatMap (fun item =>
    if isItemList item then
      (jElems (jget item (s2l "itemListElement"))).filterMap
        (entryRecord default_state default_city)
    else [])

/-! ### Anchors and the Heuristic Extractor -/

/-- An `<a href=...>` element as the parser collaborator presents it to
the core: its `href` attribute, its visible text
(`get_text(" ", strip=True)`), and — for the Heuristic Extractor — the
text of the first descendant of its nearest `li`/`article`/`div`
ancestor (or immediate parent) whose `class` matches
`address|location` case-insensitively, when such an element exists. -/
structure Anchor where
  href : List Char
  text : List Char
  containerAddr : Option (List Char)
deriving Repr, DecidableEq

/-- The eight concrete strings matched by
`DATA_CENTER_PATH_RE = re.compile(r"/data[-]?cent(er|re)s?/", re.IGNORECASE)`
(lowercase forms). -/
def dcVariants : List (List Char) :=
  [s2l "/datacenter/", s2l "/datacenters/", s2l "/datacentre/",
   s2l "/datacentres/", s2l "/data-center/", s2l "/data-centers/",
   s2l "/data-centre/", s2l "/data-centres/"]

/-- Substring test. -/
def containsSub (pat : List Char) : List Char → Bool
  | [] => decide (pat = [])
  | c :: cs => List.isPrefixOf pat (c :: cs) || containsSub pat cs

/-- `DATA_CENTER_PATH_RE.search(href)` as a Boolean: some slash-bounded
`data-center(s)`/`data-centre(s)` segment occurs, case-insensitively. -/
def dcPathMatch (href : List Char) : Bool :=
  dcVariants.any (fun p => containsSub p (lowerL href))

/-- The href-to-url step of `extract_from_links`: hrefs starting with
`/` get `base_url.rstrip("/")` prepended; every other href is used
verbatim. -/
def linkResolve (base_url href : List Char) : List Char :=
  if href.take 1 = ['/'] then pyRstripChar '/' base_url ++ href else href

/-- The loop of `extract_from_links`, with the `seen` set of already
used resolved urls made explicit. -/
def extractLinksGo (base_url default_state default_city : List Char)
    (seen : List (List Char)) : List Anchor → List DataCenter
  | [] => []
  | link :: rest =>
    if dcPathMatch link.href then
      let url := linkResolve base_url link.href
      let name := normalize_whitespace link.text
      if name = [] then extractLinksGo base_url default_state default_city seen rest
      else if url ∈ seen then extractLinksGo base_url default_state default_city seen rest
      else
        let address_text :=
          match link.containerAddr with
          | some t => normalize_whitespace t
          | none => []
        { name := name, url := url, address := address_text,
          city := default_city, state := default_state, postal_code := [] }
          :: extractLinksGo base_url default_state default_city (url :: seen) rest
    else extractLinksGo base_url default_state default_city seen rest

/-- `extract_from_links(soup, base_url, default_state, default_city)`;
`links` is the page's list of anchors with an `href`. -/
def extract_from_links (links : List Anchor) (base_url : List Char)
    (default_state default_city : List Char) : List DataCenter :=
  extractLinksGo base_url default_state default_city [] links

/-! ### Deduplication -/

/-- The `(name, url)` dedup key of a record. -/
def keyOf (c : DataCenter) : List Char × List Char := (c.name, c.url)

/-- The loop of `dedupe_centers`, with the `seen` key set explicit. -/
def dedupeGo (seen : List (List Char × List Char)) :
    List DataCenter → List DataCenter
  | [] => []
  | c :: rest =>
    if keyOf c ∈ seen then dedupeGo seen rest
    else c :: dedupeGo (keyOf c :: seen) rest

/-- `dedupe_centers(centers)`: keep the first occurrence of each
`(name, url)` key, in order. -/
def dedupe_centers (centers : List DataCenter) : List DataCenter :=
  dedupeGo [] centers

/-! ### The crawl loop -/

/-- A fetched-and-parsed page, as the collaborators hand it to the core:
the decoded JSON-LD payloads (`parse_json_ld` output) and the anchors
with an `href` attribute (used by both `extract_from_links` and
`extract_location_links`). -/
structure Page where
  jsonLd : List Json
  anchors : List Anchor

/-- The loop of `extract_location_links`: normalize each anchor href
against the page URL, keep those classified as location URLs.  Python
collects them into a `set`; it is modelled as an insertion-ordered list
without duplicates (CPython set iteration order is unspecified; no claim
depends on the order). -/
def extractLocGo (base_url base_netloc : List Char) (acc : List (List Char)) :
    List Anchor → List (List Char)
  | [] => acc
  | link :: rest =>
    let normalized := normalize_url link.href base_url
    if normalized = [] then extractLocGo base_url base_netloc acc rest
    else if (classify_location_url normalized base_netloc).isSome then
      if normalized ∈ acc then extractLocGo base_url base_netloc acc rest
      else extractLocGo base_url base_netloc (acc ++ [normalized]) rest
    else extractLocGo base_url base_netloc acc rest

/-- `extract_location_links(soup, base_url)`. -/
def extract_location_links (links : List Anchor) (base_url : List Char) :
    List (List Char) :=
  extractLocGo base_url (urlparse base_url []).netloc [] links

/-- One page's contribution in `scrape_centers`: the Structured
Extractor's records, or — exactly when those are empty — the Heuristic
Extractor's, both with the default state/city derived from the page
URL. -/
def pageCenters (url : List Char) (page : Page) : List DataCenter :=
  let loc := extract_location_from_url url
  let page_centers := extract_from_itemlist page.jsonLd loc.1 loc.2
  if page_centers = [] then extract_from_links page.anchors url loc.1 loc.2
  else page_centers

/-- The enqueue loop of `scrape_centers`: each discovered location URL
is appended only if it is in neither the visited set nor the current
queue (which includes URLs appended earlier in the same loop). -/
def enqueueNew (visited : List (List Char)) (queue : List (List Char)) :
    List (List Char) → List (List Char)
  | [] => queue
  | u :: us =>
    if u ∉ visited ∧ u ∉ queue then enqueueNew visited (queue ++ [u]) us
    else enqueueNew visited queue us

/-- Outcome of a crawl: the fetch trace (URLs passed to `fetch_html`, in
order), the accumulated records, and whether the queue was exhausted
(`finished = false` only when the step budget ran out first). -/
structure ScrapeResult where
  trace : List (List Char)
  centers : List DataCenter
  finished : Bool
deriving Repr, DecidableEq

/-- The `while queue:` loop of `scrape_centers`.  `fetch` is the
fetcher oracle: `none` models an `HTTPError`/`URLError`, which the loop
reports and survives.  `fuel` bounds the number of iterations, since an
adversarial fetcher can grow the queue forever.  The `--dump-html` side
channel is pure I/O and does not influence the crawl state. -/
def scrapeLoop (fetch : List Char → Option Page) :
    Nat → List (List Char) → List (List Char) → List (List Char) →
    List DataCenter → ScrapeResult
  | 0, queue, _, trace, centers => ⟨trace, centers, queue.isEmpty⟩
  | _ + 1, [], _, trace, centers => ⟨trace, centers, true⟩
  | fuel + 1, url :: queue, visited, trace, centers =>
    if url ∈ visited then scrapeLoop fetch fuel queue visited trace centers
    else
      let visited := url :: visited
      match fetch url with
      | none => scrapeLoop fetch fuel queue visited (trace ++ [url]) centers
      | some page =>
        let centers := centers ++ pageCenters url page
        let queue := enqueueNew visited queue (extract_location_links page.anchors url)
        scrapeLoop fetch fuel queue visited (trace ++ [url]) centers

/-- `scrape_centers(start_url)`: seed the queue with the normalized
start URL, run the loop, dedupe the result. -/
def scrape_centers (fetch : List Char → Option Page) (fuel : Nat)
    (start_url : List Char) : ScrapeResult :=
  let r := scrapeLoop fetch fuel [normalize_url start_url start_url] [] [] []
  ⟨r.trace, dedupe_centers r.centers, r.finished⟩

/-! ## Definitions following the spec's words (for refinement claims) -/

/-- The spec's three-way classification of a crawl URL. -/
inductive LocClass where
  | unclassified : LocClass
  | region : LocClass
  | locality : LocClass
deriving Repr, DecidableEq

/-- Follows the spec's words: `classify(url, baseHost)` returns
`unclassified` if the URL's host differs from `baseHost` or its path's
first segment does not match the expected directory-root marker
(case-insensitive); otherwise counts remaining path segments — exactly
one further segment means `region-level`, two or more mean
`locality-level`.  The host of a URL is its netloc. -/
def classify_spec (url baseHost marker : List Char) : LocClass :=
  let parsed := urlparse url []
  if parsed.netloc ≠ baseHost then .unclassified
  else
    let parts := (splitOnSlash parsed.path).filter (· ≠ [])
    if parts = [] ∨ lowerL (parts.headD []) ≠ lowerL marker then .unclassified
    else if parts.length - 1 = 1 then .region
    else if 2 ≤ parts.length - 1 then .locality
    else .unclassified

/-- Follows the spec's words: `normalize(href, baseURL)` resolves a
possibly-relative href against a base URL; rejects non-HTTP(S) schemes
(returns empty); strips query string and fragment; returns the
canonical absolute form. -/
def normalize_spec (href baseURL : List Char) : List Char :=
  let resolved := urljoin baseURL href
  let parsed := urlparse resolved []
  if parsed.scheme = s2l "http" ∨ parsed.scheme = s2l "https" then
    urlunparse ⟨parsed.scheme, parsed.netloc, parsed.path, parsed.params, [], []⟩
  else []

/-- A string is whitespace-normalized when `normalize_whitespace` fixes
it: runs of whitespace already collapsed to single spaces, no leading or
trailing whitespace. -/
def isNormalizedWs (s : List Char) : Prop := normalize_whitespace s = s

/-! ## Path/params helpers used by the idempotence development -/

/-- Reattach params to a path, as `geturl`/`urlunparse` does. -/
def joinPP (p pa : List Char) : List Char :=
  if pa = [] then p else p ++ ';' :: pa

/-- The path/params split `urlparse` performs for a scheme that uses
params. -/
def splitPP (t : List Char) : List Char × List Char :=
  if ';' ∈ t then splitparams t else (t, [])

/-- The part of a string after its last `/` (the whole string when it
has no slash). -/
def lastSegOf (t : List Char) : List Char :=
  match splitAtLastSlash t with
  | some (_, suf) => suf
  | none => t

/-- A path-with-params string survives the params split/rejoin
round trip. -/
def ppStable (t : List Char) : Prop :=
  joinPP (splitPP t).1 (splitPP t).2 = t

/-- Netloc components produced by `urlsplit`: no `/`, `?`, `#`, and no
WHATWG-unsafe bytes. -/
def goodNetloc (n : List Char) : Prop :=
  ∀ c ∈ n, c ≠ '/' ∧ c ≠ '?' ∧ c ≠ '#' ∧ ¬isBadUrlByte c

/-- Path and params components produced by `urlparse`: no `?`, `#`, and
no WHATWG-unsafe bytes. -/
def goodPathish (p : List Char) : Prop :=
  ∀ c ∈ p, c ≠ '?' ∧ c ≠ '#' ∧ ¬isBadUrlByte c

/-! ## Concrete inputs used by scenarios, counterexamples and witnesses -/

/-- Three records for exercising `dedupe_centers`: the first and third
share a `(name, url)` key but differ in `address`. -/
def dcA : DataCenter :=
  ⟨s2l "Acme", s2l "https://x/a", s2l "1 Main St", [], [], []⟩

/-- Second record, distinct key. -/
def dcB : DataCenter :=
  ⟨s2l "Beta", s2l "https://x/b", [], [], [], []⟩

/-- Same key as `dcA`, different `address`. -/
def dcA2 : DataCenter :=
  ⟨s2l "Acme", s2l "https://x/a", s2l "2 Side St", [], [], []⟩

/-- An anchor whose relative href (no leading slash) matches the
facility-path pattern. -/
def cexAnchor8 : Anchor := ⟨s2l "x/data-centers/a", s2l "A", none⟩

/-- A JSON-LD item list whose single entry has a `url` that is not
whitespace-normalized. -/
def cexItems9 : List Json :=
  [.obj [(s2l "@type", .str (s2l "ItemList")),
         (s2l "itemListElement",
          .arr [.obj [(s2l "item",
                       .obj [(s2l "name", .str (s2l "A")),
                             (s2l "url", .str (s2l " http://x  y "))])]])]]

/-- An item entry that has a nested `address` object carrying only a
`streetAddress` (no locality, region or postal code). -/
def cexEntry10 : Json :=
  .obj [(s2l "name", .str (s2l "A")),
        (s2l "url", .str (s2l "u")),
        (s2l "address", .obj [(s2l "streetAddress", .str (s2l "1 Main St"))])]

/-- A JSON-LD item list around `cexEntry10`. -/
def cexItems10 : List Json :=
  [.obj [(s2l "@type", .str (s2l "ItemList")),
         (s2l "itemListElement", .arr [.obj [(s2l "item", cexEntry10)]])]]

/-- Seed URL of the crawl scenario. -/
def urlS : List Char := s2l "https://example.com/usa/"

/-- First discovered region URL (its fetch will fail). -/
def urlA : List Char := s2l "https://example.com/usa/texas/"

/-- Second discovered region URL (its fetch succeeds). -/
def urlB : List Char := s2l "https://example.com/usa/utah/"

/-- The seed page: no JSON-LD, two anchors pointing at the two region
pages. -/
def pageS : Page :=
  ⟨[], [⟨urlA, s2l "Texas", none⟩, ⟨urlB, s2l "Utah", none⟩]⟩

/-- The item-list entry of the successful region page. -/
def entryAcme : Json :=
  .obj [(s2l "item",
         .obj [(s2l "name", .str (s2l "Acme DC")),
               (s2l "url", .str (s2l "https://example.com/facility/acme")),
               (s2l "address",
                .obj [(s2l "streetAddress", .str (s2l "1 Main St")),
                      (s2l "addressLocality", .str (s2l "Austin")),
                      (s2l "addressRegion", .str (s2l "Texas")),
                      (s2l "postalCode", .str (s2l "78701"))])])]

/-- The successful region page: one structured record, no anchors. -/
def pageB : Page :=
  ⟨[.obj [(s2l "@type", .str (s2l "ItemList")),
          (s2l "itemListElement", .arr [entryAcme])]], []⟩

/-- The scenario fetcher: the seed and `urlB` resolve; fetching `urlA`
fails with a caught network error. -/
def fetchC4 : List Char → Option Page := fun u =>
  if u = urlS then some pageS
  else if u = urlB then some pageB
  else none

/-- The single record the scenario crawl must produce. -/
def acmeC4 : DataCenter :=
  ⟨s2l "Acme DC", s2l "https://example.com/facility/acme",
   s2l "1 Main St", s2l "Austin", s2l "Texas", s2l "78701"⟩

/-- The record the Structured Extractor produces from `cexItems9`. -/
def cexRec9 : DataCenter := ⟨s2l "A", s2l " http://x  y ", [], [], [], []⟩

/-- The `itemListElement` element wrapping `cexEntry10`. -/
def cexElem10 : Json := .obj [(s2l "item", cexEntry10)]

/-- The fields of `cexEntry10`'s nested address object. -/
def cexFs10 : List (List Char × Json) :=
  [(s2l "streetAddress", .str (s2l "1 Main St"))]

/-- The record the Structured Extractor produces from `cexItems10` with
defaults `DefState`/`DefCity`. -/
def cexRec10 : DataCenter :=
  ⟨s2l "A", s2l "u", s2l "1 Main St", s2l "DefCity", s2l "DefState", []⟩

/-- The record the Heuristic Extractor produces from `cexAnchor8`. -/
def cexRec8 : DataCenter := ⟨s2l "A", s2l "x/data-centers/a", [], [], [], []⟩

/-! ## Deduplication lemmas (claim C1) -/

theorem dedupeGo_sublist (l : List DataCenter) :
    ∀ seen, List.Sublist (dedupeGo seen l) l := by
  induction l with
  | nil => intro seen; simp [dedupeGo]
  | cons a rest ih =>
    intro seen
    simp only [dedupeGo]
    by_cases hk : keyOf a ∈ seen
    · rw [if_pos hk]; exact (ih seen).cons a
    · rw [if_neg hk]; exact (ih _).cons₂ a

theorem dedupeGo_keys_not_seen (l : List DataCenter) :
    ∀ seen c, c ∈ dedupeGo seen l → keyOf c ∉ seen := by
  induction l with
  | nil => intro seen c h; simp [dedupeGo] at h
  | cons a rest ih =>
    intro seen c h
    simp only [dedupeGo] at h
    by_cases hk : keyOf a ∈ seen
    · rw [if_pos hk] at h; exact ih seen c h
    · rw [if_neg hk] at h
      rcases List.mem_cons.mp h with rfl | h2
      · exact hk
      · intro hc
        exact ih _ c h2 (List.mem_cons_of_mem _ hc)

theorem dedupeGo_pairwise (l : List DataCenter) :
    ∀ seen, (dedupeGo seen l).Pairwise (fun a b => keyOf a ≠ keyOf b) := by
  induction l with
  | nil => intro seen; simp [dedupeGo]
  | cons a rest ih =>
    intro seen
    simp only [dedupeGo]
    by_cases hk : keyOf a ∈ seen
    · rw [if_pos hk]; exact ih seen
    · rw [if_neg hk]
      refine List.Pairwise.cons ?_ (ih _)
      intro b hb he
      exact dedupeGo_keys_not_seen rest _ b hb (by rw [← he]; exact List.mem_cons_self _ _)

theorem dedupeGo_first (l : List DataCenter) :
    ∀ seen c, c ∈ dedupeGo seen l →
      ∃ l₁ l₂, l = l₁ ++ c :: l₂ ∧ ∀ d ∈ l₁, keyOf d ≠ keyOf c := by
  induction l with
  | nil => intro seen c h; simp [dedupeGo] at h
  | cons a rest ih =>
    intro seen c h
    simp only [dedupeGo] at h
    by_cases hk : keyOf a ∈ seen
    · rw [if_pos hk] at h
      obtain ⟨l₁, l₂, req, hl₁⟩ := ih seen c h
      refine ⟨a :: l₁, l₂, by rw [req]; rfl, ?_⟩
      intro d hd
      rcases List.mem_cons.mp hd with rfl | hd2
      · intro he
        exact dedupeGo_keys_not_seen rest seen c h (he ▸ hk)
      · exact hl₁ d hd2
    · rw [if_neg hk] at h
      rcases List.mem_cons.mp h with rfl | h2
      · exact ⟨[], rest, rfl, by intro d hd; simp at hd⟩
      · obtain ⟨l₁, l₂, req, hl₁⟩ := ih _ c h2
        refine ⟨a :: l₁, l₂, by rw [req]; rfl, ?_⟩
        intro d hd
        rcases List.mem_cons.mp hd with rfl | hd2
        · intro he
          exact dedupeGo_keys_not_seen rest _ c h2
            (by rw [← he]; exact List.mem_cons_self _ _)
        · exact hl₁ d hd2

theorem dedupeGo_complete (l : List DataCenter) :
    ∀ seen c, c ∈ l → keyOf c ∉ seen →
      ∃ d ∈ dedupeGo seen l, keyOf d = keyOf c := by
  induction l with
  | nil => intro seen c h; simp at h
  | cons a rest ih =>
    intro seen c hc hns
    simp only [dedupeGo]
    by_cases hk : keyOf a ∈ seen
    · rw [if_pos hk]
      rcases List.mem_cons.mp hc with rfl | h2
      · exact absurd hk hns
      · exact ih seen c h2 hns
    · rw [if_neg hk]
      rcases List.mem_cons.mp hc with hca | h2
      · exact ⟨a, List.mem_cons_self _ _, (congrArg keyOf hca).symm⟩
      · by_cases he : keyOf c = keyOf a
        · exact ⟨a, List.mem_cons_self _ _, he.symm⟩
        · obtain ⟨d, hd, hde⟩ := ih (keyOf a :: seen) c h2 (by
            intro hmem
            rcases List.mem_cons.mp hmem with h3 | h3
            · exact he h3
            · exact hns h3)
          exact ⟨d, List.mem_cons_of_mem _ hd, hde⟩

/-- C1: for every input sequence of facility records, `dedupe_centers`
returns a sublist of the input (hence the kept records carry all field
values of input records, in input order) in which no two records share a
`(name, url)` key; every kept record is the first occurrence of its key
in the input, and every input key survives. -/
theorem dedupe_centers_correct (l : List DataCenter) :
    List.Sublist (dedupe_centers l) l
  ∧ (dedupe_centers l).Pairwise (fun a b => keyOf a ≠ keyOf b)
  ∧ (∀ c ∈ dedupe_centers l,
       ∃ l₁ l₂, l = l₁ ++ c :: l₂ ∧ ∀ d ∈ l₁, keyOf d ≠ keyOf c)
  ∧ (∀ c ∈ l, ∃ d ∈ dedupe_centers l, keyOf d = keyOf c) := by
  refine ⟨dedupeGo_sublist l [], dedupeGo_pairwise l [], ?_, ?_⟩
  · intro c hc; exact dedupeGo_first l [] c hc
  · intro c hc; exact dedupeGo_complete l [] c hc (by simp)

/-- Witness for C1 at a concrete input: in `[dcA, dcB, dcA2]` (first and
third share a key), `dcB` is kept and is the first occurrence of its
key. -/
theorem dedupe_centers_correct_witness :
    ∃ l₁ l₂, [dcA, dcB, dcA2] = l₁ ++ dcB :: l₂ ∧ ∀ d ∈ l₁, keyOf d ≠ keyOf dcB :=
  (dedupe_centers_correct [dcA, dcB, dcA2]).2.2.1 dcB (by decide)

/-! ## Classifier lemmas (claim C5) -/

theorem lowerL_usa : lowerL (s2l "usa") = s2l "usa" := by decide

/-- C5: the classifier boundary.  The four spec examples hold (the code
labels `region-level` as `"state"` and `locality-level` as `"city"`,
and returns `None` for `unclassified`), and in general
`classify_location_url` agrees with the spec's description
(`classify_spec`) with directory-root marker `usa`: `unclassified` when
the host differs or the first path segment is not the marker
(case-insensitively), `region-level` for exactly one further segment,
`locality-level` for two or more. -/
theorem classify_boundary :
    (classify_location_url (s2l "https://example.com/usa/texas/")
        (s2l "example.com") = some (s2l "state")
     ∧ classify_location_url (s2l "https://example.com/usa/texas/austin/")
        (s2l "example.com") = some (s2l "city")
     ∧ classify_location_url (s2l "https://example.com/europe/")
        (s2l "example.com") = none
     ∧ classify_location_url (s2l "https://other.com/usa/texas/")
        (s2l "example.com") = none)
  ∧ ∀ url baseHost,
      classify_location_url url baseHost =
        (match classify_spec url baseHost (s2l "usa") with
         | .region => some (s2l "state")
         | .locality => some (s2l "city")
         | .unclassified => none) := by
  refine ⟨⟨by decide, by decide, by decide, by decide⟩, ?_⟩
  intro url baseHost
  simp only [classify_location_url, classify_spec, lowerL_usa]
  by_cases h1 : (urlparse url []).netloc ≠ baseHost
  · rw [if_pos h1, if_pos h1]
  · rw [if_neg h1, if_neg h1]
    set parts := (splitOnSlash (urlparse url []).path).filter (· ≠ []) with hparts
    by_cases h2 : parts = [] ∨ lowerL (parts.headD []) ≠ s2l "usa"
    · rw [if_pos h2, if_pos h2]
    · rw [if_neg h2, if_neg h2]
      have hlen : 1 ≤ parts.length := by
        rcases Nat.eq_zero_or_pos parts.length with hz | hp
        · exact absurd (List.eq_nil_of_length_eq_zero hz) (fun hnil => h2 (Or.inl hnil))
        · exact hp
      by_cases h3 : parts.length = 2
      · rw [if_pos h3, if_pos (by omega : parts.length - 1 = 1)]
      · rw [if_neg h3, if_neg (by omega : ¬parts.length - 1 = 1)]
        by_cases h4 : 3 ≤ parts.length
        · rw [if_pos h4, if_pos (by omega : 2 ≤ parts.length - 1)]
        · rw [if_neg h4, if_neg (by omega : ¬2 ≤ parts.length - 1)]

/-! ## Normalizer refinement (claim C7) -/

/-- Counterexample to C7 as stated: for the empty href, the code
returns empty, while the spec's description (resolve against the base,
keep HTTP(S), strip query/fragment) yields the stripped base URL. -/
theorem normalize_url_spec_cex :
    normalize_url [] (s2l "http://x?q") = []
  ∧ normalize_spec [] (s2l "http://x?q") = s2l "http://x"
  ∧ normalize_url [] (s2l "http://x?q") ≠ normalize_spec [] (s2l "http://x?q") :=
  ⟨by decide, by decide, by decide⟩

/-- C7 amended: except that an empty href yields the empty result
without any resolution, `normalize_url` behaves exactly as the spec
describes: it resolves the possibly-relative href against the base URL,
returns empty when the resolved URL's scheme is not `http`/`https`, and
otherwise returns the resolved form with query string and fragment
removed. -/
theorem normalize_url_spec_equiv (href base_url : List Char) :
    normalize_url href base_url =
      if href = [] then [] else normalize_spec href base_url := by
  by_cases h : href = []
  · rw [if_pos h, h]; rfl
  · unfold normalize_url normalize_spec
    rw [if_neg h]

/-! ## Whitespace normalization lemmas -/

theorem pysplit_cons_space {c : Char} (cs : List Char) (hc : isPySpace c = true) :
    pysplit (c :: cs) = pysplit cs := by
  simp [pysplit, hc]

theorem pysplit_singleton {c : Char} (hc : isPySpace c = false) :
    pysplit [c] = [[c]] := by
  simp [pysplit, hc]

theorem pysplit_cons_cons_space {c d : Char} (ds : List Char)
    (hc : isPySpace c = false) (hd : isPySpace d = true) :
    pysplit (c :: d :: ds) = [c] :: pysplit (d :: ds) := by
  simp [pysplit, hc, hd]

theorem pysplit_cons_cons_word {c d : Char} (ds W : List Char)
    (Ws : List (List Char)) (hc : isPySpace c = false) (hd : isPySpace d = false)
    (hps : pysplit (d :: ds) = W :: Ws) :
    pysplit (c :: d :: ds) = (c :: W) :: Ws := by
  conv_lhs => rw [pysplit.eq_def]
  simp only [hc, hd, hps, Bool.false_eq_true, if_false]

theorem pysplit_cons_cons_word_nil {c d : Char} (ds : List Char)
    (hc : isPySpace c = false) (hd : isPySpace d = false)
    (hps : pysplit (d :: ds) = []) :
    pysplit (c :: d :: ds) = [[c]] := by
  conv_lhs => rw [pysplit.eq_def]
  simp only [hc, hd, hps, Bool.false_eq_true, if_false]

theorem pysplit_head {d : Char} (ds : List Char) (hd : isPySpace d = false) :
    ∃ w ws, pysplit (d :: ds) = (d :: w) :: ws := by
  cases ds with
  | nil => exact ⟨[], [], pysplit_singleton hd⟩
  | cons e es =>
    by_cases he : isPySpace e
    · exact ⟨[], pysplit (e :: es), pysplit_cons_cons_space es hd he⟩
    · replace he : isPySpace e = false := by simpa using he
      cases hps : pysplit (e :: es) with
      | nil => exact ⟨[], [], pysplit_cons_cons_word_nil es hd he hps⟩
      | cons w ws => exact ⟨w, ws, pysplit_cons_cons_word es w ws hd he hps⟩

theorem pysplit_words (s : List Char) :
    ∀ w ∈ pysplit s, w ≠ [] ∧ ∀ c ∈ w, isPySpace c = false := by
  induction s with
  | nil => intro w hw; simp [pysplit] at hw
  | cons c cs ih =>
    intro w hw
    by_cases hc : isPySpace c
    · rw [pysplit_cons_space cs hc] at hw; exact ih w hw
    · replace hc : isPySpace c = false := by simpa using hc
      cases cs with
      | nil =>
        rw [pysplit_singleton hc] at hw
        simp only [List.mem_singleton] at hw
        subst hw
        refine ⟨by simp, ?_⟩
        intro x hx
        simp only [List.mem_singleton] at hx
        subst hx
        exact hc
      | cons d ds =>
        by_cases hd : isPySpace d
        · rw [pysplit_cons_cons_space ds hc hd] at hw
          rcases List.mem_cons.mp hw with rfl | h2
          · refine ⟨by simp, ?_⟩
            intro x hx
            simp only [List.mem_singleton] at hx
            subst hx
            exact hc
          · exact ih w h2
        · replace hd : isPySpace d = false := by simpa using hd
          obtain ⟨W, Ws, hps⟩ := pysplit_head ds hd
          rw [pysplit_cons_cons_word ds (d :: W) Ws hc hd hps] at hw
          rcases List.mem_cons.mp hw with rfl | h2
          · have hw1 := ih (d :: W) (by rw [hps]; exact List.mem_cons_self _ _)
            refine ⟨by simp, ?_⟩
            intro x hx
            rcases List.mem_cons.mp hx with rfl | hx2
            · exact hc
            · exact hw1.2 x hx2
          · exact ih w (by rw [hps]; exact List.mem_cons_of_mem _ h2)

theorem pysplit_single_word (w : List Char) (hw : w ≠ [])
    (hcs : ∀ c ∈ w, isPySpace c = false) : pysplit w = [w] := by
  induction w with
  | nil => exact absurd rfl hw
  | cons c cs ih =>
    have hc := hcs c (List.mem_cons_self _ _)
    cases cs with
    | nil => exact pysplit_singleton hc
    | cons d ds =>
      have hd := hcs d (List.mem_cons_of_mem _ (List.mem_cons_self _ _))
      have hih := ih (by simp) (fun x hx => hcs x (List.mem_cons_of_mem _ hx))
      exact pysplit_cons_cons_word ds (d :: ds) [] hc hd hih

theorem pysplit_word_append (w t : List Char) (hw : w ≠ [])
    (hcs : ∀ c ∈ w, isPySpace c = false) :
    pysplit (w ++ ' ' :: t) = w :: pysplit t := by
  induction w with
  | nil => exact absurd rfl hw
  | cons c cs ih =>
    have hc := hcs c (List.mem_cons_self _ _)
    cases cs with
    | nil =>
      have hsp : isPySpace ' ' = true := by decide
      simp only [List.cons_append, List.nil_append]
      rw [pysplit_cons_cons_space t hc hsp, pysplit_cons_space t hsp]
    | cons d ds =>
      have hd := hcs d (List.mem_cons_of_mem _ (List.mem_cons_self _ _))
      have hih := ih (by simp) (fun x hx => hcs x (List.mem_cons_of_mem _ hx))
      simp only [List.cons_append] at hih ⊢
      exact pysplit_cons_cons_word (ds ++ ' ' :: t) (d :: ds) (pysplit t) hc hd hih

theorem pysplit_joinWords (ws : List (List Char))
    (h : ∀ w ∈ ws, w ≠ [] ∧ ∀ c ∈ w, isPySpace c = false) :
    pysplit (joinWords ws) = ws := by
  induction ws with
  | nil => simp [joinWords, pysplit]
  | cons w ws ih =>
    have hw := h w (List.mem_cons_self _ _)
    cases ws with
    | nil => exact pysplit_single_word w hw.1 hw.2
    | cons w2 ws2 =>
      rw [show joinWords (w :: w2 :: ws2) = w ++ ' ' :: joinWords (w2 :: ws2) from rfl]
      rw [pysplit_word_append w _ hw.1 hw.2]
      rw [ih (fun x hx => h x (List.mem_cons_of_mem _ hx))]

/-- `normalize_whitespace` is idempotent: its outputs are normalized. -/
theorem normalize_whitespace_idem (s : List Char) :
    normalize_whitespace (normalize_whitespace s) = normalize_whitespace s := by
  unfold normalize_whitespace
  rw [pysplit_joinWords (pysplit s) (pysplit_words s)]

theorem isNormalizedWs_nw (s : List Char) : isNormalizedWs (normalize_whitespace s) :=
  normalize_whitespace_idem s

/-! ## Structured Extractor lemmas (claims C9, C10) -/

theorem entryRecord_shape (ds dc : List Char) (e : Json) (r : DataCenter)
    (h : entryRecord ds dc e = some r) :
    ∃ name url a cy st po,
      r = ⟨normalize_whitespace name, url, normalize_whitespace a,
           (if normalize_whitespace cy = [] then dc else normalize_whitespace cy),
           (if normalize_whitespace st = [] then ds else normalize_whitespace st),
           normalize_whitespace po⟩ := by
  simp only [entryRecord] at h
  split at h
  · split at h
    · split at h
      · split at h
        · injection h with h
          exact ⟨_, _, _, _, _, _, h.symm⟩
        · exact absurd h (by simp)
      · exact absurd h (by simp)
    · exact absurd h (by simp)
  · exact absurd h (by simp)

/-- Membership in the Structured Extractor's output comes from some
entry. -/
theorem mem_extract_from_itemlist (items : List Json) (ds dc : List Char)
    (r : DataCenter) (hr : r ∈ extract_from_itemlist items ds dc) :
    ∃ e, entryRecord ds dc e = some r := by
  unfold extract_from_itemlist at hr
  obtain ⟨item, _, hr2⟩ := List.mem_flatMap.mp hr
  by_cases hil : isItemList item
  · rw [if_pos hil] at hr2
    obtain ⟨e, _, hrec⟩ := List.mem_filterMap.mp hr2
    exact ⟨e, hrec⟩
  · rw [if_neg hil] at hr2
    simp at hr2

/-- Counterexample to C9 as stated: the Structured Extractor copies the
`url` field verbatim, so a `url` with uncollapsed whitespace survives
un-normalized. -/
theorem itemlist_url_not_normalized_cex :
    (extract_from_itemlist cexItems9 [] []).map (fun r => r.url)
      = [s2l " http://x  y "]
  ∧ normalize_whitespace (s2l " http://x  y ") ≠ s2l " http://x  y " :=
  ⟨by decide, by decide⟩

/-- C9 amended: every text field of a record produced by the Structured
Extractor is whitespace-normalized except `url` (copied verbatim from
the item): `name`, `address` and `postal_code` always, `city` and
`state` unless they are the caller-supplied defaults passed through
verbatim. -/
theorem itemlist_fields_normalized (items : List Json) (ds dc : List Char)
    (r : DataCenter) (hr : r ∈ extract_from_itemlist items ds dc) :
    isNormalizedWs r.name ∧ isNormalizedWs r.address ∧ isNormalizedWs r.postal_code
  ∧ (isNormalizedWs r.city ∨ r.city = dc)
  ∧ (isNormalizedWs r.state ∨ r.state = ds) := by
  obtain ⟨e, he⟩ := mem_extract_from_itemlist items ds dc r hr
  obtain ⟨name, url, a, cy, st, po, rfl⟩ := entryRecord_shape ds dc e r he
  refine ⟨isNormalizedWs_nw name, isNormalizedWs_nw a, isNormalizedWs_nw po, ?_, ?_⟩
  · by_cases hcy : normalize_whitespace cy = []
    · right; simp [hcy]
    · left; simp only [if_neg hcy]; exact isNormalizedWs_nw cy
  · by_cases hst : normalize_whitespace st = []
    · right; simp [hst]
    · left; simp only [if_neg hst]; exact isNormalizedWs_nw st

/-- Witness for C9 (amended) at the concrete item list `cexItems9`. -/
theorem itemlist_fields_normalized_witness :
    isNormalizedWs cexRec9.name ∧ isNormalizedWs cexRec9.address
  ∧ isNormalizedWs cexRec9.postal_code
  ∧ (isNormalizedWs cexRec9.city ∨ cexRec9.city = [])
  ∧ (isNormalizedWs cexRec9.state ∨ cexRec9.state = []) :=
  itemlist_fields_normalized cexItems9 [] [] cexRec9 (by decide)

/-- Counterexample to C10 as stated: `cexEntry10` has a nested address
object (carrying only a street address), yet the record's `city` and
`state` fall back to the caller-supplied defaults. -/
theorem itemlist_address_fallback_cex :
    extract_from_itemlist cexItems10 (s2l "DefState") (s2l "DefCity") = [cexRec10]
  ∧ (jget cexEntry10 (s2l "address")).isSome = true
  ∧ cexRec10.city = s2l "DefCity" ∧ cexRec10.state = s2l "DefState" :=
  ⟨by decide, by decide, by decide, by decide⟩

/-- C10 amended: for an entry with a nested address object, `address`
and `postal_code` come from its `streetAddress`/`postalCode` sub-fields
(whitespace-normalized, empty when absent), while `city` (resp.
`state`) comes from `addressLocality` (resp. `addressRegion`) only when
that sub-field normalizes to a non-empty string, and falls back to the
caller-supplied default otherwise — even though the address object is
present. -/
theorem itemlist_address_fields (ds dc : List Char) (element entry : Json)
    (fs : List (List Char × Json)) (r : DataCenter)
    (h : entryRecord ds dc element = some r)
    (hitem : jget element (s2l "item") = some entry)
    (haddr : jget entry (s2l "address") = some (.obj fs)) :
    r.address = normalize_whitespace (jStrOrEmpty (jget (.obj fs) (s2l "streetAddress")))
  ∧ r.postal_code = normalize_whitespace (jStrOrEmpty (jget (.obj fs) (s2l "postalCode")))
  ∧ (normalize_whitespace (jStrOrEmpty (jget (.obj fs) (s2l "addressLocality"))) ≠ [] →
      r.city = normalize_whitespace (jStrOrEmpty (jget (.obj fs) (s2l "addressLocality"))))
  ∧ (normalize_whitespace (jStrOrEmpty (jget (.obj fs) (s2l "addressLocality"))) = [] →
      r.city = dc)
  ∧ (normalize_whitespace (jStrOrEmpty (jget (.obj fs) (s2l "addressRegion"))) ≠ [] →
      r.state = normalize_whitespace (jStrOrEmpty (jget (.obj fs) (s2l "addressRegion"))))
  ∧ (normalize_whitespace (jStrOrEmpty (jget (.obj fs) (s2l "addressRegion"))) = [] →
      r.state = ds) := by
  simp only [entryRecord] at h
  split at h
  · rw [hitem] at h
    simp only [] at h
    split at h
    · rw [haddr] at h
      simp only [] at h
      split at h
      · injection h with h
        subst h
        refine ⟨rfl, rfl, ?_, ?_, ?_, ?_⟩
        · intro hne; simp only [if_neg hne]
        · intro heq; simp only [if_pos heq]
        · intro hne; simp only [if_neg hne]
        · intro heq; simp only [if_pos heq]
      · exact absurd h (by simp)
    · exact absurd h (by simp)
  · exact absurd h (by simp)

/-- Witness for C10 (amended) at the concrete entry `cexEntry10`. -/
theorem itemlist_address_fields_witness :
    cexRec10.address
        = normalize_whitespace (jStrOrEmpty (jget (.obj cexFs10) (s2l "streetAddress")))
  ∧ cexRec10.postal_code
        = normalize_whitespace (jStrOrEmpty (jget (.obj cexFs10) (s2l "postalCode")))
  ∧ (normalize_whitespace (jStrOrEmpty (jget (.obj cexFs10) (s2l "addressLocality"))) ≠ [] →
      cexRec10.city
        = normalize_whitespace (jStrOrEmpty (jget (.obj cexFs10) (s2l "addressLocality"))))
  ∧ (normalize_whitespace (jStrOrEmpty (jget (.obj cexFs10) (s2l "addressLocality"))) = [] →
      cexRec10.city = s2l "DefCity")
  ∧ (normalize_whitespace (jStrOrEmpty (jget (.obj cexFs10) (s2l "addressRegion"))) ≠ [] →
      cexRec10.state
        = normalize_whitespace (jStrOrEmpty (jget (.obj cexFs10) (s2l "addressRegion"))))
  ∧ (normalize_whitespace (jStrOrEmpty (jget (.obj cexFs10) (s2l "addressRegion"))) = [] →
      cexRec10.state = s2l "DefState") :=
  itemlist_address_fields (s2l "DefState") (s2l "DefCity") cexElem10 cexEntry10
    cexFs10 cexRec10 (by decide) (by rfl) (by rfl)

/-! ## Heuristic Extractor lemmas (claim C8) -/

theorem extractLinksGo_mem (base ds dc : List Char) (links : List Anchor) :
    ∀ seen r, r ∈ extractLinksGo base ds dc seen links →
      ∃ a ∈ links, dcPathMatch a.href = true ∧ r.url = linkResolve base a.href
        ∧ r.name = normalize_whitespace a.text ∧ r.name ≠ []
        ∧ r.city = dc ∧ r.state = ds := by
  induction links with
  | nil => intro seen r h; simp [extractLinksGo] at h
  | cons link rest ih =>
    intro seen r h
    simp only [extractLinksGo] at h
    by_cases hm : dcPathMatch link.href
    · rw [if_pos hm] at h
      by_cases hn : normalize_whitespace link.text = []
      · rw [if_pos hn] at h
        obtain ⟨a, ha, rest⟩ := ih seen r h
        exact ⟨a, List.mem_cons_of_mem _ ha, rest⟩
      · rw [if_neg hn] at h
        by_cases hs : linkResolve base link.href ∈ seen
        · rw [if_pos hs] at h
          obtain ⟨a, ha, rest⟩ := ih seen r h
          exact ⟨a, List.mem_cons_of_mem _ ha, rest⟩
        · rw [if_neg hs] at h
          rcases List.mem_cons.mp h with rfl | h2
          · exact ⟨link, List.mem_cons_self _ _, hm, rfl, rfl, hn, rfl, rfl⟩
          · obtain ⟨a, ha, rest⟩ := ih _ r h2
            exact ⟨a, List.mem_cons_of_mem _ ha, rest⟩
    · rw [if_neg hm] at h
      obtain ⟨a, ha, rest⟩ := ih seen r h
      exact ⟨a, List.mem_cons_of_mem _ ha, rest⟩

theorem extractLinksGo_url_not_seen (base ds dc : List Char) (links : List Anchor) :
    ∀ seen r, r ∈ extractLinksGo base ds dc seen links → r.url ∉ seen := by
  induction links with
  | nil => intro seen r h; simp [extractLinksGo] at h
  | cons link rest ih =>
    intro seen r h
    simp only [extractLinksGo] at h
    by_cases hm : dcPathMatch link.href
    · rw [if_pos hm] at h
      by_cases hn : normalize_whitespace link.text = []
      · rw [if_pos hn] at h; exact ih seen r h
      · rw [if_neg hn] at h
        by_cases hs : linkResolve base link.href ∈ seen
        · rw [if_pos hs] at h; exact ih seen r h
        · rw [if_neg hs] at h
          rcases List.mem_cons.mp h with rfl | h2
          · exact hs
          · intro hc
            exact ih _ r h2 (List.mem_cons_of_mem _ hc)
    · rw [if_neg hm] at h; exact ih seen r h

theorem extractLinksGo_pairwise (base ds dc : List Char) (links : List Anchor) :
    ∀ seen, (extractLinksGo base ds dc seen links).Pairwise (fun a b => a.url ≠ b.url) := by
  induction links with
  | nil => intro seen; simp [extractLinksGo]
  | cons link rest ih =>
    intro seen
    simp only [extractLinksGo]
    by_cases hm : dcPathMatch link.href
    · rw [if_pos hm]
      by_cases hn : normalize_whitespace link.text = []
      · rw [if_pos hn]; exact ih seen
      · rw [if_neg hn]
        by_cases hs : linkResolve base link.href ∈ seen
        · rw [if_pos hs]; exact ih seen
        · rw [if_neg hs]
          refine List.Pairwise.cons ?_ (ih _)
          intro b hb he
          exact extractLinksGo_url_not_seen base ds dc rest _ b hb
            (by rw [← he]; exact List.mem_cons_self _ _)
    · rw [if_neg hm]; exact ih seen

/-- Counterexample to C8 as stated: a relative href without a leading
slash that matches the facility-path pattern is used verbatim as the
record's url — it is not resolved to absolute form against the page
URL; standard relative-URL resolution (`urljoin`, as used by the
crawler's own `normalize_url`) would produce an absolute URL. -/
theorem links_resolution_cex :
    (extract_from_links [cexAnchor8] (s2l "https://h/usa/texas/") [] []).map
        (fun r => r.url)
      = [s2l "x/data-centers/a"]
  ∧ urljoin (s2l "https://h/usa/texas/") cexAnchor8.href
      = s2l "https://h/usa/texas/x/data-centers/a"
  ∧ s2l "x/data-centers/a" ≠ urljoin (s2l "https://h/usa/texas/") cexAnchor8.href :=
  ⟨by decide, by decide, by decide⟩

/-- C8 amended: every record of the Heuristic Extractor comes from an
anchor matching the facility-path pattern, and its url — also the
within-page dedup key, so no two records share one — is
`linkResolve`: the page URL with trailing slashes stripped is prepended
when the href starts with `/`, and every other href (absolute or
relative) is used verbatim. -/
theorem links_url_characterization (links : List Anchor) (base ds dc : List Char) :
    (∀ r ∈ extract_from_links links base ds dc,
       ∃ a ∈ links, dcPathMatch a.href = true ∧ r.url = linkResolve base a.href
         ∧ r.name = normalize_whitespace a.text ∧ r.name ≠ []
         ∧ r.city = dc ∧ r.state = ds)
  ∧ (extract_from_links links base ds dc).Pairwise (fun a b => a.url ≠ b.url) :=
  ⟨fun r hr => extractLinksGo_mem base ds dc links [] r hr,
   extractLinksGo_pairwise base ds dc links []⟩

/-- Witness for C8 (amended) at the concrete anchor `cexAnchor8`. -/
theorem links_url_characterization_witness :
    ∃ a ∈ [cexAnchor8], dcPathMatch a.href = true
      ∧ cexRec8.url = linkResolve (s2l "https://h/usa/texas/") a.href
      ∧ cexRec8.name = normalize_whitespace a.text ∧ cexRec8.name ≠ []
      ∧ cexRec8.city = [] ∧ cexRec8.state = [] :=
  (links_url_characterization [cexAnchor8] (s2l "https://h/usa/texas/") [] []).1
    cexRec8 (by decide)

/-! ## Crawl-loop lemmas (claims C2, C3, C4) -/

theorem enqueueNew_nodup (visited news : List (List Char)) :
    ∀ queue, queue.Nodup → (enqueueNew visited queue news).Nodup := by
  induction news with
  | nil => intro q hq; simpa [enqueueNew] using hq
  | cons u us ih =>
    intro q hq
    simp only [enqueueNew]
    by_cases hc : u ∉ visited ∧ u ∉ q
    · rw [if_pos hc]
      refine ih (q ++ [u]) ?_
      rw [List.nodup_append]
      refine ⟨hq, List.nodup_singleton u, ?_⟩
      intro x hx hxu
      simp only [List.mem_singleton] at hxu
      subst hxu
      exact hc.2 hx
    · rw [if_neg hc]; exact ih q hq

theorem enqueueNew_mem (visited news : List (List Char)) :
    ∀ queue u, u ∈ enqueueNew visited queue news →
      u ∈ queue ∨ (u ∉ visited ∧ u ∈ news) := by
  induction news with
  | nil => intro q u h; left; simpa [enqueueNew] using h
  | cons v us ih =>
    intro q u h
    simp only [enqueueNew] at h
    by_cases hc : v ∉ visited ∧ v ∉ q
    · rw [if_pos hc] at h
      rcases ih (q ++ [v]) u h with h2 | h2
      · rcases List.mem_append.mp h2 with h3 | h3
        · exact Or.inl h3
        · simp only [List.mem_singleton] at h3
          subst h3
          exact Or.inr ⟨hc.1, List.mem_cons_self _ _⟩
      · exact Or.inr ⟨h2.1, List.mem_cons_of_mem _ h2.2⟩
    · rw [if_neg hc] at h
      rcases ih q u h with h2 | h2
      · exact Or.inl h2
      · exact Or.inr ⟨h2.1, List.mem_cons_of_mem _ h2.2⟩

theorem scrapeLoop_trace_nodup (fetch : List Char → Option Page) (fuel : Nat) :
    ∀ queue visited trace centers, trace.Nodup → (∀ u ∈ trace, u ∈ visited) →
      (scrapeLoop fetch fuel queue visited trace centers).trace.Nodup := by
  induction fuel with
  | zero => intro q v t c ht _; simpa [scrapeLoop] using ht
  | succ fuel ih =>
    intro q v t c ht hsub
    cases q with
    | nil => simpa [scrapeLoop] using ht
    | cons url rest =>
      simp only [scrapeLoop]
      by_cases hv : url ∈ v
      · rw [if_pos hv]; exact ih rest v t c ht hsub
      · rw [if_neg hv]
        have hnt : url ∉ t := fun hmem => hv (hsub url hmem)
        have ht2 : (t ++ [url]).Nodup := by
          rw [List.nodup_append]
          refine ⟨ht, List.nodup_singleton url, ?_⟩
          intro x hx hxu
          simp only [List.mem_singleton] at hxu
          subst hxu
          exact hnt hx
        have hsub2 : ∀ u ∈ t ++ [url], u ∈ url :: v := by
          intro u hu
          rcases List.mem_append.mp hu with h1 | h1
          · exact List.mem_cons_of_mem _ (hsub u h1)
          · simp only [List.mem_singleton] at h1
            subst h1
            exact List.mem_cons_self _ _
        cases hf : fetch url with
        | none => exact ih rest _ _ c ht2 hsub2
        | some page => exact ih _ _ _ _ ht2 hsub2

/-- C2: each URL is fetched at most once.  For every fetcher, step
budget and start URL the fetch trace of `scrape_centers` has no
duplicates; moreover the enqueue step keeps the queue duplicate-free,
and a URL it actually adds (one not already in the queue) is neither in
the visited set nor already queued — it comes fresh from the page's
links. -/
theorem no_revisitation :
    (∀ fetch fuel start_url, (scrape_centers fetch fuel start_url).trace.Nodup)
  ∧ (∀ visited queue news, queue.Nodup → (enqueueNew visited queue news).Nodup)
  ∧ (∀ visited queue news u, u ∈ enqueueNew visited queue news →
       u ∉ queue → u ∉ visited ∧ u ∈ news) := by
  refine ⟨?_, ?_, ?_⟩
  · intro fetch fuel start
    exact scrapeLoop_trace_nodup fetch fuel _ [] [] [] List.nodup_nil (by simp)
  · intro v q ns hq; exact enqueueNew_nodup v ns q hq
  · intro v q ns u hmem hnq
    rcases enqueueNew_mem v ns q u hmem with h | h
    · exact absurd h hnq
    · exact h

/-- Witness for C2 at concrete data: enqueueing `[urlA, urlB, urlS]`
onto queue `[urlA]` with `urlS` visited keeps the queue duplicate-free,
and the added `urlB` was in neither the visited set nor the queue. -/
theorem no_revisitation_witness :
    (enqueueNew [urlS] [urlA] [urlA, urlB, urlS]).Nodup
  ∧ (urlB ∉ [urlS] ∧ urlB ∈ [urlA, urlB, urlS]) :=
  ⟨no_revisitation.2.1 [urlS] [urlA] [urlA, urlB, urlS] (by decide),
   no_revisitation.2.2 [urlS] [urlA] [urlA, urlB, urlS] urlB (by decide) (by decide)⟩

theorem scrapeLoop_centers_eq (fetch : List Char → Option Page) (fuel : Nat) :
    ∀ queue visited trace centers,
      ∃ ex, (scrapeLoop fetch fuel queue visited trace centers).trace = trace ++ ex
        ∧ (scrapeLoop fetch fuel queue visited trace centers).centers =
            centers ++
              (ex.filterMap (fun u => (fetch u).map (fun p => (u, p)))).flatMap
                (fun up => pageCenters up.1 up.2) := by
  induction fuel with
  | zero => intro q v t c; exact ⟨[], by simp [scrapeLoop], by simp [scrapeLoop]⟩
  | succ fuel ih =>
    intro q v t c
    cases q with
    | nil => exact ⟨[], by simp [scrapeLoop], by simp [scrapeLoop]⟩
    | cons url rest =>
      simp only [scrapeLoop]
      by_cases hv : url ∈ v
      · rw [if_pos hv]; exact ih rest v t c
      · rw [if_neg hv]
        cases hf : fetch url with
        | none =>
          obtain ⟨ex, h1, h2⟩ := ih rest (url :: v) (t ++ [url]) c
          refine ⟨url :: ex, ?_, ?_⟩
          · rw [h1, List.append_assoc]; rfl
          · rw [h2]
            simp [List.filterMap_cons, hf]
        | some page =>
          obtain ⟨ex, h1, h2⟩ :=
            ih (enqueueNew (url :: v) rest (extract_location_links page.anchors url))
              (url :: v) (t ++ [url]) (c ++ pageCenters url page)
          refine ⟨url :: ex, ?_, ?_⟩
          · rw [h1, List.append_assoc]; rfl
          · rw [h2]
            simp [List.filterMap_cons, hf, List.append_assoc]

/-- C3: per page, the Heuristic Extractor runs exactly when the
Structured Extractor returned nothing, both with the default state/city
derived from the page URL, and a non-empty structured result alone is
the page's contribution; accumulated over a crawl, the records are the
concatenation of `pageCenters` over the successfully fetched pages in
trace order. -/
theorem extraction_fallback :
    (∀ url page,
       (extract_from_itemlist page.jsonLd (extract_location_from_url url).1
            (extract_location_from_url url).2 = [] →
          pageCenters url page =
            extract_from_links page.anchors url (extract_location_from_url url).1
              (extract_location_from_url url).2)
     ∧ (extract_from_itemlist page.jsonLd (extract_location_from_url url).1
            (extract_location_from_url url).2 ≠ [] →
          pageCenters url page =
            extract_from_itemlist page.jsonLd (extract_location_from_url url).1
              (extract_location_from_url url).2))
  ∧ (∀ fetch fuel queue visited,
       (scrapeLoop fetch fuel queue visited [] []).centers =
         ((scrapeLoop fetch fuel queue visited [] []).trace.filterMap
             (fun u => (fetch u).map (fun p => (u, p)))).flatMap
           (fun up => pageCenters up.1 up.2)) := by
  constructor
  · intro url page
    constructor
    · intro h; simp only [pageCenters]; rw [if_pos h]
    · intro h; simp only [pageCenters]; rw [if_neg h]
  · intro fetch fuel q v
    obtain ⟨ex, h1, h2⟩ := scrapeLoop_centers_eq fetch fuel q v [] []
    rw [h2, h1]
    simp

/-- Witness for C3 at the scenario's successful page: its structured
result is non-empty, so it alone is the page's contribution. -/
theorem extraction_fallback_witness :
    pageCenters urlB pageB =
      extract_from_itemlist pageB.jsonLd (extract_location_from_url urlB).1
        (extract_location_from_url urlB).2 :=
  (extraction_fallback.1 urlB pageB).2 (by decide)

/-- C4: a failed fetch is reported and skipped, not fatal: the loop
continues with the remaining queue and the same records, and in the
concrete two-page scenario (seed links to `urlA` and `urlB`, fetching
`urlA` fails, `urlB` yields one record) the crawl runs to completion
with exactly that one record; no failure escapes the loop. -/
theorem fetch_failure_resilience :
    (∀ fetch fuel url queue visited trace centers,
       url ∉ visited → fetch url = none →
       scrapeLoop fetch (fuel + 1) (url :: queue) visited trace centers
         = scrapeLoop fetch fuel queue (url :: visited) (trace ++ [url]) centers)
  ∧ (scrape_centers fetchC4 5 urlS).finished = true
  ∧ (scrape_centers fetchC4 5 urlS).centers = [acmeC4]
  ∧ (scrape_centers fetchC4 5 urlS).trace = [urlS, urlA, urlB] := by
  refine ⟨?_, by decide, by decide, by decide⟩
  intro fetch fuel url q v t c hv hf
  simp only [scrapeLoop]
  rw [if_neg hv, hf]

/-- Witness for C4's loop-step clause at concrete data: with `urlA`
unvisited and failing, one step just marks it visited and records the
attempt. -/
theorem fetch_failure_resilience_witness :
    scrapeLoop fetchC4 1 [urlA] [urlS] [urlS] []
      = scrapeLoop fetchC4 0 [] [urlA, urlS] [urlS, urlA] [] :=
  fetch_failure_resilience.1 fetchC4 0 urlA [] [urlS] [urlS] [] (by decide) (by rfl)

/-! ## Splitting characterizations (toward claim C6) -/

theorem splitFirst_eq_none {ch : Char} :
    ∀ {s : List Char}, splitFirst ch s = none ↔ ch ∉ s := by
  intro s
  induction s with
  | nil => simp [splitFirst]
  | cons c cs ih =>
    simp only [splitFirst, List.mem_cons]
    by_cases hc : c = ch
    · subst hc; simp
    · rw [if_neg hc, Option.map_eq_none', ih]
      constructor
      · intro h hor
        rcases hor with h2 | h2
        · exact hc h2.symm
        · exact h h2
      · intro h h2
        exact h (Or.inr h2)

theorem splitFirst_eq_some {ch : Char} :
    ∀ {s a b : List Char}, splitFirst ch s = some (a, b) →
      s = a ++ ch :: b ∧ ch ∉ a := by
  intro s
  induction s with
  | nil => intro a b h; simp [splitFirst] at h
  | cons c cs ih =>
    intro a b h
    simp only [splitFirst] at h
    by_cases hc : c = ch
    · rw [if_pos hc] at h
      simp only [Option.some.injEq, Prod.mk.injEq] at h
      obtain ⟨h1, h2⟩ := h
      subst h1
      subst h2
      simp [hc]
    · rw [if_neg hc] at h
      cases hsp : splitFirst ch cs with
      | none => rw [hsp] at h; simp at h
      | some p =>
        obtain ⟨a0, b0⟩ := p
        rw [hsp] at h
        simp only [Option.map_some', Option.some.injEq, Prod.mk.injEq] at h
        obtain ⟨h1, h2⟩ := h
        subst h1
        subst h2
        obtain ⟨hs, hna⟩ := ih hsp
        constructor
        · rw [List.cons_append, hs]
        · intro hmem
          rcases List.mem_cons.mp hmem with h2 | h2
          · exact hc h2.symm
          · exact hna h2

theorem splitFirst_append {ch : Char} :
    ∀ {a : List Char} (b : List Char), ch ∉ a →
      splitFirst ch (a ++ ch :: b) = some (a, b) := by
  intro a
  induction a with
  | nil => intro b _; simp [splitFirst]
  | cons c cs ih =>
    intro b hna
    have hc : c ≠ ch := fun h => hna (h ▸ List.mem_cons_self _ _)
    simp [List.cons_append, splitFirst, if_neg hc,
      ih b (fun h => hna (List.mem_cons_of_mem _ h))]

theorem splitAtLastSlash_eq_none :
    ∀ {s : List Char}, splitAtLastSlash s = none ↔ '/' ∉ s := by
  intro s
  induction s with
  | nil => simp [splitAtLastSlash]
  | cons c cs ih =>
    simp only [splitAtLastSlash, List.mem_cons]
    cases hsp : splitAtLastSlash cs with
    | some p =>
      obtain ⟨p1, s1⟩ := p
      constructor
      · intro h; exact absurd h (by simp)
      · intro h
        exact absurd (ih.mpr (fun h2 => h (Or.inr h2))) (by rw [hsp]; simp)
    | none =>
      by_cases hc : c = '/'
      · rw [if_pos hc]
        constructor
        · intro h; exact absurd h (by simp)
        · intro h; exact absurd (Or.inl hc.symm) h
      · rw [if_neg hc]
        constructor
        · intro _ hmem
          rcases hmem with h2 | h2
          · exact hc h2.symm
          · exact ih.mp hsp h2
        · intro _; rfl

theorem splitAtLastSlash_eq_some :
    ∀ {s pre suf : List Char}, splitAtLastSlash s = some (pre, suf) →
      s = pre ++ suf ∧ '/' ∉ suf ∧ ∃ pre0, pre = pre0 ++ ['/'] := by
  intro s
  induction s with
  | nil => intro pre suf h; simp [splitAtLastSlash] at h
  | cons c cs ih =>
    intro pre suf h
    simp only [splitAtLastSlash] at h
    cases hsp : splitAtLastSlash cs with
    | some p =>
      rw [hsp] at h
      obtain ⟨p1, s1⟩ := p
      simp only [Option.some.injEq] at h
      have hpre : pre = c :: p1 := (congrArg Prod.fst h).symm
      have hsuf : suf = s1 := (congrArg Prod.snd h).symm
      obtain ⟨he, hns, pre0, hp0⟩ := ih hsp
      subst hpre hsuf
      refine ⟨by rw [List.cons_append, he], hns, c :: pre0, by rw [hp0]; rfl⟩
    | none =>
      rw [hsp] at h
      by_cases hc : c = '/'
      · rw [if_pos hc] at h
        simp only [Option.some.injEq] at h
        have hpre : pre = ['/'] := (congrArg Prod.fst h).symm
        have hsuf : suf = cs := (congrArg Prod.snd h).symm
        subst hpre hsuf
        exact ⟨by simp [hc], splitAtLastSlash_eq_none.mp hsp, [], rfl⟩
      · rw [if_neg hc] at h
        simp at h

/-! ## `lastSegOf` lemmas -/

theorem lastSegOf_cons_of_mem {t : List Char} (c : Char) (h : '/' ∈ t) :
    lastSegOf (c :: t) = lastSegOf t := by
  unfold lastSegOf
  cases hsp : splitAtLastSlash t with
  | none => exact absurd h (splitAtLastSlash_eq_none.mp hsp)
  | some p =>
    obtain ⟨p1, s1⟩ := p
    simp [splitAtLastSlash, hsp]

theorem lastSegOf_slash_cons (t : List Char) :
    lastSegOf ('/' :: t) = lastSegOf t := by
  unfold lastSegOf
  cases hsp : splitAtLastSlash t with
  | none => simp [splitAtLastSlash, hsp]
  | some p =>
    obtain ⟨p1, s1⟩ := p
    simp [splitAtLastSlash, hsp]

theorem lastSegOf_append (X : List Char) {rest : List Char} (h : '/' ∈ rest) :
    lastSegOf (X ++ rest) = lastSegOf rest := by
  induction X with
  | nil => rfl
  | cons c cs ih =>
    rw [List.cons_append, lastSegOf_cons_of_mem c (List.mem_append.mpr (Or.inr h)), ih]

theorem lastSegOf_of_no_slash {t : List Char} (h : '/' ∉ t) : lastSegOf t = t := by
  unfold lastSegOf
  rw [splitAtLastSlash_eq_none.mpr h]

theorem lastSegOf_subset {t : List Char} : ∀ c ∈ lastSegOf t, c ∈ t := by
  intro c hc
  unfold lastSegOf at hc
  cases hsp : splitAtLastSlash t with
  | none => rw [hsp] at hc; exact hc
  | some p =>
    obtain ⟨p1, s1⟩ := p
    rw [hsp] at hc
    obtain ⟨he, _, _⟩ := splitAtLastSlash_eq_some hsp
    rw [he]
    exact List.mem_append.mpr (Or.inr hc)

theorem no_slash_lastSegOf {t : List Char} : '/' ∉ lastSegOf t := by
  unfold lastSegOf
  cases hsp : splitAtLastSlash t with
  | none => exact splitAtLastSlash_eq_none.mp hsp
  | some p =>
    obtain ⟨p1, s1⟩ := p
    exact (splitAtLastSlash_eq_some hsp).2.1

/-! ## Stability of the params split under re-splitting -/

theorem joinPP_nil (p : List Char) : joinPP p [] = p := by
  unfold joinPP; rw [if_pos rfl]

theorem joinPP_cons (p : List Char) (b0 : Char) (bs : List Char) :
    joinPP p (b0 :: bs) = p ++ ';' :: b0 :: bs := by
  unfold joinPP; rw [if_neg (by simp)]

theorem splitPP_of_mem {T : List Char} (h : ';' ∈ T) : splitPP T = splitparams T := by
  unfold splitPP; rw [if_pos h]

theorem splitPP_of_not_mem {T : List Char} (h : ';' ∉ T) : splitPP T = (T, []) := by
  unfold splitPP; rw [if_neg h]

theorem splitparams_ss {T pre suf a b : List Char}
    (hsp : splitAtLastSlash T = some (pre, suf))
    (hsf : splitFirst ';' suf = some (a, b)) :
    splitparams T = (pre ++ a, b) := by
  unfold splitparams
  rw [hsp]
  show (match splitFirst ';' suf with
        | some (a, b) => (pre ++ a, b)
        | none => (T, ([] : List Char))) = (pre ++ a, b)
  rw [hsf]

theorem splitparams_sn {T pre suf : List Char}
    (hsp : splitAtLastSlash T = some (pre, suf))
    (hsf : splitFirst ';' suf = none) :
    splitparams T = (T, []) := by
  unfold splitparams
  rw [hsp]
  show (match splitFirst ';' suf with
        | some (a, b) => (pre ++ a, b)
        | none => (T, ([] : List Char))) = (T, [])
  rw [hsf]

theorem splitparams_ns {T a b : List Char}
    (hsp : splitAtLastSlash T = none)
    (hsf : splitFirst ';' T = some (a, b)) :
    splitparams T = (a, b) := by
  unfold splitparams
  rw [hsp]
  show (match splitFirst ';' T with
        | some (a, b) => (a, b)
        | none => (T, ([] : List Char))) = (a, b)
  rw [hsf]

theorem ppStable_iff {T : List Char} :
    ppStable T ↔ ∀ a, splitFirst ';' (lastSegOf T) ≠ some (a, []) := by
  by_cases hsemi : ';' ∈ T
  · cases hsp : splitAtLastSlash T with
    | some p =>
      obtain ⟨pre, suf⟩ := p
      obtain ⟨hT, hnsuf, pre0, hpre0⟩ := splitAtLastSlash_eq_some hsp
      have hseg : lastSegOf T = suf := by unfold lastSegOf; rw [hsp]
      cases hsf : splitFirst ';' suf with
      | some q =>
        obtain ⟨a, b⟩ := q
        obtain ⟨hsuf, hna⟩ := splitFirst_eq_some hsf
        cases b with
        | nil =>
          apply iff_of_false
          · unfold ppStable
            rw [splitPP_of_mem hsemi, splitparams_ss hsp hsf]
            show ¬joinPP (pre ++ a) [] = T
            rw [joinPP_nil]
            intro heq
            have hlen := congrArg List.length heq
            rw [hT, hsuf] at hlen
            simp only [List.length_append, List.length_cons] at hlen
            omega
          · intro hforall
            rw [hseg] at hforall
            exact hforall a hsf
        | cons b0 bs =>
          apply iff_of_true
          · unfold ppStable
            rw [splitPP_of_mem hsemi, splitparams_ss hsp hsf]
            show joinPP (pre ++ a) (b0 :: bs) = T
            rw [joinPP_cons, hT, hsuf, List.append_assoc]
          · intro a2 hcon
            rw [hseg, hsf] at hcon
            simp at hcon
      | none =>
        apply iff_of_true
        · unfold ppStable
          rw [splitPP_of_mem hsemi, splitparams_sn hsp hsf]
          show joinPP T [] = T
          rw [joinPP_nil]
        · intro a2 hcon
          rw [hseg, hsf] at hcon
          exact Option.noConfusion hcon
    | none =>
      have hseg : lastSegOf T = T := by unfold lastSegOf; rw [hsp]
      cases hsf : splitFirst ';' T with
      | some q =>
        obtain ⟨a, b⟩ := q
        obtain ⟨hT2, hna⟩ := splitFirst_eq_some hsf
        cases b with
        | nil =>
          apply iff_of_false
          · unfold ppStable
            rw [splitPP_of_mem hsemi, splitparams_ns hsp hsf]
            show ¬joinPP a [] = T
            rw [joinPP_nil]
            intro heq
            have hlen := congrArg List.length heq
            rw [hT2] at hlen
            simp only [List.length_append, List.length_cons] at hlen
            omega
          · intro hforall
            rw [hseg] at hforall
            exact hforall a hsf
        | cons b0 bs =>
          apply iff_of_true
          · unfold ppStable
            rw [splitPP_of_mem hsemi, splitparams_ns hsp hsf]
            show joinPP a (b0 :: bs) = T
            rw [joinPP_cons]
            exact hT2.symm
          · intro a2 hcon
            rw [hseg, hsf] at hcon
            simp at hcon
      | none => exact absurd hsemi (splitFirst_eq_none.mp hsf)
  · apply iff_of_true
    · unfold ppStable
      rw [splitPP_of_not_mem hsemi]
      show joinPP T [] = T
      rw [joinPP_nil]
    · intro a hcon
      obtain ⟨he, _⟩ := splitFirst_eq_some hcon
      refine hsemi (lastSegOf_subset _ ?_)
      rw [he]
      exact List.mem_append.mpr (Or.inr (List.mem_cons_self _ _))

theorem ppStable_nil : ppStable ([] : List Char) := rfl

theorem ppStable_splitPP (T : List Char) :
    ppStable (joinPP (splitPP T).1 (splitPP T).2) := by
  by_cases hsemi : ';' ∈ T
  · cases hsp : splitAtLastSlash T with
    | some p =>
      obtain ⟨pre, suf⟩ := p
      obtain ⟨hT, hnsuf, pre0, hpre0⟩ := splitAtLastSlash_eq_some hsp
      have hseg : lastSegOf T = suf := by unfold lastSegOf; rw [hsp]
      cases hsf : splitFirst ';' suf with
      | some q =>
        obtain ⟨a, b⟩ := q
        obtain ⟨hsuf, hna⟩ := splitFirst_eq_some hsf
        cases b with
        | nil =>
          rw [splitPP_of_mem hsemi, splitparams_ss hsp hsf]
          show ppStable (joinPP (pre ++ a) [])
          rw [joinPP_nil, ppStable_iff]
          intro a2 hcon
          have hna2 : '/' ∉ a := fun hm => hnsuf (hsuf ▸ List.mem_append.mpr (Or.inl hm))
          rw [hpre0, List.append_assoc, List.singleton_append,
            lastSegOf_append pre0 (List.mem_cons_self _ _),
            lastSegOf_slash_cons, lastSegOf_of_no_slash hna2,
            splitFirst_eq_none.mpr hna] at hcon
          exact Option.noConfusion hcon
        | cons b0 bs =>
          rw [splitPP_of_mem hsemi, splitparams_ss hsp hsf]
          show ppStable (joinPP (pre ++ a) (b0 :: bs))
          rw [joinPP_cons, List.append_assoc, ← hsuf, ← hT, ppStable_iff]
          intro a2 hcon
          rw [hseg, hsf] at hcon
          simp at hcon
      | none =>
        rw [splitPP_of_mem hsemi, splitparams_sn hsp hsf]
        show ppStable (joinPP T [])
        rw [joinPP_nil, ppStable_iff]
        intro a2 hcon
        rw [hseg, hsf] at hcon
        exact Option.noConfusion hcon
    | none =>
      have hnsl : '/' ∉ T := splitAtLastSlash_eq_none.mp hsp
      have hseg : lastSegOf T = T := by unfold lastSegOf; rw [hsp]
      cases hsf : splitFirst ';' T with
      | some q =>
        obtain ⟨a, b⟩ := q
        obtain ⟨hT2, hna⟩ := splitFirst_eq_some hsf
        cases b with
        | nil =>
          rw [splitPP_of_mem hsemi, splitparams_ns hsp hsf]
          show ppStable (joinPP a [])
          rw [joinPP_nil, ppStable_iff]
          intro a2 hcon
          have hna2 : '/' ∉ a := fun hm => hnsl (hT2 ▸ List.mem_append.mpr (Or.inl hm))
          rw [lastSegOf_of_no_slash hna2, splitFirst_eq_none.mpr hna] at hcon
          exact Option.noConfusion hcon
        | cons b0 bs =>
          rw [splitPP_of_mem hsemi, splitparams_ns hsp hsf]
          show ppStable (joinPP a (b0 :: bs))
          rw [joinPP_cons, ← hT2, ppStable_iff]
          intro a2 hcon
          rw [hseg, hsf] at hcon
          simp at hcon
      | none => exact absurd hsemi (splitFirst_eq_none.mp hsf)
  · rw [splitPP_of_not_mem hsemi]
    show ppStable (joinPP T [])
    rw [joinPP_nil, ppStable_iff]
    intro a hcon
    obtain ⟨he, _⟩ := splitFirst_eq_some hcon
    refine hsemi (lastSegOf_subset _ ?_)
    rw [he]
    exact List.mem_append.mpr (Or.inr (List.mem_cons_self _ _))

theorem ppStable_slash_cons {T : List Char} (h : ppStable T) :
    ppStable ('/' :: T) := by
  rw [ppStable_iff, lastSegOf_slash_cons]
  exact ppStable_iff.mp h

/-! ## Components of `urlsplit`/`urlparse` outputs are well-formed -/

theorem urlsplit_eq_parts (x d : List Char) :
    urlsplit x d = ⟨(splitScheme (cleanScheme d) (cleanUrl x)).1, (netPair x d).1,
      (quPair x d).1, (quPair x d).2, (fragPair x d).2⟩ := rfl

theorem cleanUrl_bad_free (x : List Char) :
    ∀ c ∈ cleanUrl x, isBadUrlByte c = false := by
  intro c hc
  unfold cleanUrl at hc
  have := List.mem_filter.mp hc
  simpa using this.2

theorem splitScheme_snd_subset (d0 u : List Char) :
    ∀ c ∈ (splitScheme d0 u).2, c ∈ u := by
  unfold splitScheme
  cases hsf : splitFirst ':' u with
  | none => intro c hc; exact hc
  | some p =>
    obtain ⟨pre, post⟩ := p
    obtain ⟨hu, _⟩ := splitFirst_eq_some hsf
    cases pre with
    | nil => intro c hc; exact hc
    | cons c0 cs0 =>
      dsimp only
      by_cases hcond : c0.isAlpha && cs0.all isSchemeChar
      · rw [if_pos hcond]
        intro c hc
        rw [hu]
        exact List.mem_append.mpr (Or.inr (List.mem_cons_of_mem _ hc))
      · rw [if_neg hcond]
        intro c hc
        exact hc

theorem netPair_fst_pred (x d : List Char) :
    ∀ c ∈ (netPair x d).1, isNetlocDelim c = false := by
  unfold netPair
  by_cases h : (schemeRest x d).take 2 = ['/', '/']
  · rw [if_pos h]
    intro c hc
    have := List.mem_takeWhile_imp hc
    simpa using this
  · rw [if_neg h]
    intro c hc
    simp at hc

theorem netPair_subset (x d : List Char) :
    (∀ c ∈ (netPair x d).1, c ∈ schemeRest x d)
  ∧ (∀ c ∈ (netPair x d).2, c ∈ schemeRest x d) := by
  unfold netPair
  by_cases h : (schemeRest x d).take 2 = ['/', '/']
  · rw [if_pos h]
    constructor
    · intro c hc
      exact List.mem_of_mem_drop (List.Sublist.mem hc (List.takeWhile_sublist _))
    · intro c hc
      exact List.mem_of_mem_drop (List.Sublist.mem hc (List.dropWhile_sublist _))
  · rw [if_neg h]
    exact ⟨by simp, fun c hc => hc⟩

theorem fragPair_fst (x d : List Char) :
    (∀ c ∈ (fragPair x d).1, c ∈ (netPair x d).2) ∧ '#' ∉ (fragPair x d).1 := by
  unfold fragPair
  cases hsf : splitFirst '#' (netPair x d).2 with
  | none =>
    exact ⟨fun c hc => hc, splitFirst_eq_none.mp hsf⟩
  | some p =>
    obtain ⟨a, b⟩ := p
    obtain ⟨he, hna⟩ := splitFirst_eq_some hsf
    exact ⟨fun c hc => he ▸ List.mem_append.mpr (Or.inl hc), hna⟩

theorem quPair_fst (x d : List Char) :
    (∀ c ∈ (quPair x d).1, c ∈ (fragPair x d).1) ∧ '?' ∉ (quPair x d).1 := by
  unfold quPair
  cases hsf : splitFirst '?' (fragPair x d).1 with
  | none =>
    exact ⟨fun c hc => hc, splitFirst_eq_none.mp hsf⟩
  | some p =>
    obtain ⟨a, b⟩ := p
    obtain ⟨he, hna⟩ := splitFirst_eq_some hsf
    exact ⟨fun c hc => he ▸ List.mem_append.mpr (Or.inl hc), hna⟩

theorem urlsplit_good (x d : List Char) :
    goodNetloc (urlsplit x d).netloc ∧ goodPathish (urlsplit x d).path := by
  rw [urlsplit_eq_parts]
  constructor
  · intro c hc
    have hpred := netPair_fst_pred x d c hc
    have hmem : c ∈ cleanUrl x :=
      splitScheme_snd_subset (cleanScheme d) (cleanUrl x) c ((netPair_subset x d).1 c hc)
    have hbad := cleanUrl_bad_free x c hmem
    simp only [isNetlocDelim, Bool.or_eq_false_iff, decide_eq_false_iff_not] at hpred
    exact ⟨hpred.1.1, hpred.1.2, hpred.2, by simp [hbad]⟩
  · intro c hc
    have h1 : c ∈ (fragPair x d).1 := (quPair_fst x d).1 c hc
    have h2 : c ∈ (netPair x d).2 := (fragPair_fst x d).1 c h1
    have hmem : c ∈ cleanUrl x :=
      splitScheme_snd_subset (cleanScheme d) (cleanUrl x) c ((netPair_subset x d).2 c h2)
    have hbad := cleanUrl_bad_free x c hmem
    have hq : c ≠ '?' := fun he => (quPair_fst x d).2 (he ▸ hc)
    have hh : c ≠ '#' := fun he => (fragPair_fst x d).2 (he ▸ h1)
    exact ⟨hq, hh, by simp [hbad]⟩

theorem splitPP_subset (T : List Char) :
    (∀ c ∈ (splitPP T).1, c ∈ T) ∧ (∀ c ∈ (splitPP T).2, c ∈ T) := by
  by_cases hsemi : ';' ∈ T
  · rw [splitPP_of_mem hsemi]
    cases hsp : splitAtLastSlash T with
    | some p =>
      obtain ⟨pre, suf⟩ := p
      obtain ⟨hT, _, _⟩ := splitAtLastSlash_eq_some hsp
      cases hsf : splitFirst ';' suf with
      | some q =>
        obtain ⟨a, b⟩ := q
        obtain ⟨hsuf, _⟩ := splitFirst_eq_some hsf
        rw [splitparams_ss hsp hsf]
        constructor
        · intro c hc
          rcases List.mem_append.mp hc with h1 | h1
          · exact hT ▸ List.mem_append.mpr (Or.inl h1)
          · exact hT ▸ List.mem_append.mpr
              (Or.inr (hsuf ▸ List.mem_append.mpr (Or.inl h1)))
        · intro c hc
          exact hT ▸ List.mem_append.mpr
            (Or.inr (hsuf ▸ List.mem_append.mpr (Or.inr (List.mem_cons_of_mem _ hc))))
      | none =>
        rw [splitparams_sn hsp hsf]
        exact ⟨fun c hc => hc, by simp⟩
    | none =>
      cases hsf : splitFirst ';' T with
      | some q =>
        obtain ⟨a, b⟩ := q
        obtain ⟨hT2, _⟩ := splitFirst_eq_some hsf
        rw [splitparams_ns hsp hsf]
        constructor
        · intro c hc
          exact hT2 ▸ List.mem_append.mpr (Or.inl hc)
        · intro c hc
          exact hT2 ▸ List.mem_append.mpr (Or.inr (List.mem_cons_of_mem _ hc))
      | none => exact absurd hsemi (splitFirst_eq_none.mp hsf)
  · rw [splitPP_of_not_mem hsemi]
    exact ⟨fun c hc => hc, by simp⟩

theorem goodPathish_joinPP_splitPP {T : List Char} (h : goodPathish T) :
    goodPathish (joinPP (splitPP T).1 (splitPP T).2) := by
  cases hpa : (splitPP T).2 with
  | nil =>
    rw [joinPP_nil]
    intro c hc
    exact h c ((splitPP_subset T).1 c hc)
  | cons b0 bs =>
    rw [joinPP_cons]
    intro c hc
    rcases List.mem_append.mp hc with h1 | h1
    · exact h c ((splitPP_subset T).1 c h1)
    · rcases List.mem_cons.mp h1 with rfl | h2
      · exact ⟨by decide, by decide, by decide⟩
      · exact h c ((splitPP_subset T).2 c (hpa.symm ▸ h2))

theorem urlparse_eq_split (x d : List Char)
    (hp : (urlsplit x d).scheme ∈ uses_params) :
    urlparse x d = ⟨(urlsplit x d).scheme, (urlsplit x d).netloc,
      (splitPP (urlsplit x d).path).1, (splitPP (urlsplit x d).path).2,
      (urlsplit x d).query, (urlsplit x d).fragment⟩ := by
  simp only [urlparse]
  by_cases hsemi : ';' ∈ (urlsplit x d).path
  · rw [if_pos ⟨hp, hsemi⟩, splitPP_of_mem hsemi]
  · rw [if_neg (fun hand => hsemi hand.2), splitPP_of_not_mem hsemi]

theorem urlparse_good (x d : List Char)
    (hp : (urlsplit x d).scheme ∈ uses_params) :
    goodNetloc (urlparse x d).netloc
  ∧ goodPathish (joinPP (urlparse x d).path (urlparse x d).params)
  ∧ ppStable (joinPP (urlparse x d).path (urlparse x d).params) := by
  rw [urlparse_eq_split x d hp]
  exact ⟨(urlsplit_good x d).1,
    goodPathish_joinPP_splitPP (urlsplit_good x d).2,
    ppStable_splitPP (urlsplit x d).path⟩

/-! ## Re-splitting the reassembled URL (claim C6) -/

theorem takeWhile_append_all {α : Type} {p : α → Bool} {l₁ : List α} (l₂ : List α)
    (h : ∀ a ∈ l₁, p a = true) :
    (l₁ ++ l₂).takeWhile p = l₁ ++ l₂.takeWhile p := by
  induction l₁ with
  | nil => simp
  | cons a t ih =>
    rw [List.cons_append, List.takeWhile_cons, if_pos (h a (List.mem_cons_self _ _)),
      ih (fun x hx => h x (List.mem_cons_of_mem _ hx)), List.cons_append]

theorem dropWhile_append_all {α : Type} {p : α → Bool} {l₁ : List α} (l₂ : List α)
    (h : ∀ a ∈ l₁, p a = true) :
    (l₁ ++ l₂).dropWhile p = l₂.dropWhile p := by
  induction l₁ with
  | nil => simp
  | cons a t ih =>
    rw [List.cons_append, List.dropWhile_cons, if_pos (h a (List.mem_cons_self _ _)),
      ih (fun x hx => h x (List.mem_cons_of_mem _ hx))]

theorem dropWhile_head_false {α : Type} {p : α → Bool} {l : List α} {c : α}
    {t : List α} (h : l.dropWhile p = c :: t) : p c = false := by
  induction l with
  | nil => simp at h
  | cons a l ih =>
    rw [List.dropWhile_cons] at h
    by_cases hp : p a = true
    · rw [if_pos hp] at h
      exact ih h
    · rw [if_neg hp] at h
      injection h with h1 h2
      subst h1
      exact Bool.eq_false_iff.mpr hp

theorem take_two_shape {T : List Char} (h : T.take 2 = ['/', '/']) :
    T = '/' :: '/' :: T.drop 2 := by
  cases T with
  | nil => simp at h
  | cons a t =>
    cases t with
    | nil => simp at h
    | cons b t2 =>
      obtain ⟨h1, h2⟩ : a = '/' ∧ b = '/' := by simpa [List.take] using h
      subst h1
      subst h2
      rfl

theorem take_one_shape {T : List Char} (h : T.take 1 = ['/']) :
    T = '/' :: T.tail := by
  cases T with
  | nil => simp at h
  | cons a t =>
    obtain h1 : a = '/' := by simpa [List.take] using h
    subst h1
    rfl

theorem cleanUrl_eq_self {t : List Char}
    (hbad : ∀ c ∈ t, isBadUrlByte c = false)
    (hC0 : ∀ c ∈ t.take 1, isC0orSpace c = false) : cleanUrl t = t := by
  cases t with
  | nil => rfl
  | cons c cs =>
    unfold cleanUrl lstripC0
    rw [List.dropWhile_cons, if_neg (by simp [hC0 c (by simp)])]
    exact List.filter_eq_self.mpr (fun a ha => by simp [hbad a ha])

theorem splitScheme_of_shape {d0 X : List Char} (c0 : Char) (cs0 : List Char)
    (hsf : splitFirst ':' ((c0 :: cs0) ++ ':' :: X) = some (c0 :: cs0, X))
    (hcond : (c0.isAlpha && cs0.all isSchemeChar) = true) :
    splitScheme d0 ((c0 :: cs0) ++ ':' :: X) = (lowerL (c0 :: cs0), X) := by
  unfold splitScheme
  rw [hsf]
  dsimp only
  rw [if_pos hcond]

theorem splitScheme_http {d0 X s : List Char}
    (hs : s = s2l "http" ∨ s = s2l "https") :
    splitScheme d0 (s ++ ':' :: X) = (s, X) := by
  have hns : ':' ∉ s := by rcases hs with rfl | rfl <;> decide
  have hsf : splitFirst ':' (s ++ ':' :: X) = some (s, X) := splitFirst_append X hns
  rcases hs with rfl | rfl
  · rw [show s2l "http" = 'h' :: s2l "ttp" from rfl] at hsf ⊢
    rw [splitScheme_of_shape 'h' (s2l "ttp") hsf (by decide)]
    rw [show lowerL ('h' :: s2l "ttp") = 'h' :: s2l "ttp" from by decide]
  · rw [show s2l "https" = 'h' :: s2l "ttps" from rfl] at hsf ⊢
    rw [splitScheme_of_shape 'h' (s2l "ttps") hsf (by decide)]
    rw [show lowerL ('h' :: s2l "ttps") = 'h' :: s2l "ttps" from by decide]

theorem urlsplit_authority (x d s rest : List Char)
    (hx : x = s ++ ':' :: '/' :: '/' :: rest)
    (hs : s = s2l "http" ∨ s = s2l "https")
    (hrest : goodPathish rest) :
    urlsplit x d = ⟨s, rest.takeWhile (fun c => !isNetlocDelim c),
      rest.dropWhile (fun c => !isNetlocDelim c), [], []⟩ := by
  subst hx
  have hsbad : ∀ c ∈ s, isBadUrlByte c = false := by
    rcases hs with rfl | rfl <;> decide
  have hclean : cleanUrl (s ++ ':' :: '/' :: '/' :: rest)
      = s ++ ':' :: '/' :: '/' :: rest := by
    apply cleanUrl_eq_self
    · intro c hc
      rcases List.mem_append.mp hc with h1 | h1
      · exact hsbad c h1
      · rcases List.mem_cons.mp h1 with rfl | h1
        · decide
        · rcases List.mem_cons.mp h1 with rfl | h1
          · decide
          · rcases List.mem_cons.mp h1 with rfl | h1
            · decide
            · simpa using (hrest c h1).2.2
    · intro c hc
      have h1 : (s ++ ':' :: '/' :: '/' :: rest).take 1 = ['h'] := by
        rcases hs with rfl | rfl <;> rfl
      rw [h1] at hc
      obtain rfl : c = 'h' := by simpa using hc
      decide
  have hrest1 : schemeRest (s ++ ':' :: '/' :: '/' :: rest) d
      = '/' :: '/' :: rest := by
    unfold schemeRest
    rw [hclean, splitScheme_http hs]
  have hnet : netPair (s ++ ':' :: '/' :: '/' :: rest) d
      = (rest.takeWhile (fun c => !isNetlocDelim c),
         rest.dropWhile (fun c => !isNetlocDelim c)) := by
    unfold netPair
    rw [hrest1]
    rfl
  have hfr : fragPair (s ++ ':' :: '/' :: '/' :: rest) d
      = (rest.dropWhile (fun c => !isNetlocDelim c), []) := by
    unfold fragPair
    rw [hnet]
    rw [splitFirst_eq_none.mpr (fun hm => by
      have h2 : '#' ∈ rest := List.Sublist.mem hm (List.dropWhile_sublist _)
      exact (hrest '#' h2).2.1 rfl)]
  have hqu : quPair (s ++ ':' :: '/' :: '/' :: rest) d
      = (rest.dropWhile (fun c => !isNetlocDelim c), []) := by
    unfold quPair
    rw [hfr]
    rw [splitFirst_eq_none.mpr (fun hm => by
      have h2 : '?' ∈ rest := List.Sublist.mem hm (List.dropWhile_sublist _)
      exact (hrest '?' h2).1 rfl)]
  rw [urlsplit_eq_parts]
  simp only [SplitResult.mk.injEq]
  refine ⟨?_, ?_, ?_, ?_, ?_⟩
  · rw [hclean, splitScheme_http hs]
  · rw [hnet]
  · rw [hqu]
  · rw [hqu]
  · rw [hfr]

theorem urlunsplit_auth {s n T : List Char} (hsne : s ≠ [])
    (hsnet : s ∈ uses_netloc)
    (hcond : n ≠ [] ∨ T.take 2 ≠ ['/', '/']) :
    urlunsplit ⟨s, n, T, [], []⟩
      = s ++ ':' :: '/' :: '/'
          :: (n ++ (if T ≠ [] ∧ T.take 1 ≠ ['/'] then '/' :: T else T)) := by
  unfold urlunsplit
  dsimp only
  rw [if_neg (by simp), if_neg (by simp), if_pos hsne,
    if_pos (by
      rcases hcond with h | h
      · exact Or.inl h
      · exact Or.inr ⟨hsne, hsnet, h⟩)]
  simp [List.cons_append, List.append_assoc]

theorem urlunsplit_plain {s n T : List Char} (hsne : s ≠ [])
    (hn0 : n = []) (ht2 : T.take 2 = ['/', '/']) :
    urlunsplit ⟨s, n, T, [], []⟩ = s ++ ':' :: T := by
  unfold urlunsplit
  dsimp only
  rw [if_neg (by simp), if_neg (by simp), if_pos hsne,
    if_neg (by
      intro hor
      rcases hor with h | h
      · exact h hn0
      · exact h.2.2 ht2)]

theorem parse_mkURL (s n T : List Char)
    (hs : s = s2l "http" ∨ s = s2l "https")
    (hn : goodNetloc n) (hT : goodPathish T) (hstab : ppStable T) :
    ∃ n2 T2,
      (∀ d, urlparse (urlunsplit ⟨s, n, T, [], []⟩) d
          = ⟨s, n2, (splitPP T2).1, (splitPP T2).2, [], []⟩)
      ∧ goodNetloc n2
      ∧ (n2 ≠ [] → ppStable T2 ∧
          urlunsplit ⟨s, n2, T2, [], []⟩ = urlunsplit ⟨s, n, T, [], []⟩) := by
  have hsne : s ≠ [] := by rcases hs with rfl | rfl <;> decide
  have hsnet : s ∈ uses_netloc := by rcases hs with rfl | rfl <;> decide
  have hsparams : s ∈ uses_params := by rcases hs with rfl | rfl <;> decide
  have hnpred : ∀ c ∈ n, (fun c => !isNetlocDelim c) c = true := by
    intro c hc
    obtain ⟨h1, h2, h3, _⟩ := hn c hc
    simp [isNetlocDelim, h1, h2, h3]
  by_cases hcond : n ≠ [] ∨ T.take 2 ≠ ['/', '/']
  · -- authority branch of `urlunsplit`
    set P := if T ≠ [] ∧ T.take 1 ≠ ['/'] then '/' :: T else T with hPdef
    have hr := urlunsplit_auth hsne hsnet hcond
    have hPshape : P = [] ∨ P.take 1 = ['/'] := by
      by_cases h1 : T ≠ [] ∧ T.take 1 ≠ ['/']
      · rw [hPdef, if_pos h1]; right; rfl
      · by_cases hT0 : T = []
        · left; rw [hPdef, if_neg h1, hT0]
        · right
          have htk : T.take 1 = ['/'] := by
            by_contra hcon
            exact h1 ⟨hT0, hcon⟩
          rw [hPdef, if_neg h1]
          exact htk
    have hPgood : goodPathish P := by
      intro c hc
      by_cases h1 : T ≠ [] ∧ T.take 1 ≠ ['/']
      · rw [hPdef, if_pos h1] at hc
        rcases List.mem_cons.mp hc with rfl | h2
        · exact ⟨by decide, by decide, by decide⟩
        · exact hT c h2
      · rw [hPdef, if_neg h1] at hc
        exact hT c hc
    have hPstab : ppStable P := by
      by_cases h1 : T ≠ [] ∧ T.take 1 ≠ ['/']
      · rw [hPdef, if_pos h1]; exact ppStable_slash_cons hstab
      · rw [hPdef, if_neg h1]; exact hstab
    have hnPgood : goodPathish (n ++ P) := by
      intro c hc
      rcases List.mem_append.mp hc with h1 | h1
      · obtain ⟨_, h2, h3, h4⟩ := hn c h1
        exact ⟨h2, h3, h4⟩
      · exact hPgood c h1
    have htw : (n ++ P).takeWhile (fun c => !isNetlocDelim c) = n := by
      rw [takeWhile_append_all P hnpred]
      rcases hPshape with h1 | h1
      · rw [h1]; simp
      · rw [take_one_shape h1, List.takeWhile_cons, if_neg (by decide)]
        simp
    have hdw : (n ++ P).dropWhile (fun c => !isNetlocDelim c) = P := by
      rw [dropWhile_append_all P hnpred]
      rcases hPshape with h1 | h1
      · rw [h1]; rfl
      · rw [take_one_shape h1, List.dropWhile_cons, if_neg (by decide)]
    have hPslash : (if P ≠ [] ∧ P.take 1 ≠ ['/'] then '/' :: P else P) = P := by
      rcases hPshape with h1 | h1
      · rw [if_neg (fun hand => hand.1 h1)]
      · rw [if_neg (fun hand => hand.2 h1)]
    refine ⟨n, P, ?_, hn, ?_⟩
    · intro d
      have hsplit := urlsplit_authority _ d s (n ++ P) hr hs hnPgood
      rw [htw, hdw] at hsplit
      rw [urlparse_eq_split _ d (by rw [hsplit]; exact hsparams), hsplit]
    · intro hn2
      refine ⟨hPstab, ?_⟩
      rw [hr, urlunsplit_auth hsne hsnet (Or.inl hn2), hPslash]
  · -- `url[:2] == '//'` with an empty netloc: the path is kept as is
    have hn0 : n = [] := by
      by_contra hcon
      exact hcond (Or.inl hcon)
    have ht2 : T.take 2 = ['/', '/'] := by
      by_contra hcon
      exact hcond (Or.inr hcon)
    have hshape := take_two_shape ht2
    have hr := urlunsplit_plain hsne hn0 ht2
    have hTgood : goodPathish (T.drop 2) := by
      intro c hc
      exact hT c (List.mem_of_mem_drop hc)
    set n2 := (T.drop 2).takeWhile (fun c => !isNetlocDelim c) with hn2def
    set T2 := (T.drop 2).dropWhile (fun c => !isNetlocDelim c) with hT2def
    have hsum : n2 ++ T2 = T.drop 2 := List.takeWhile_append_dropWhile _ _
    have hn2good : goodNetloc n2 := by
      intro c hc
      rw [hn2def] at hc
      have hpred := List.mem_takeWhile_imp hc
      simp only [Bool.not_eq_true', isNetlocDelim, Bool.or_eq_false_iff,
        decide_eq_false_iff_not] at hpred
      have hmem : c ∈ T.drop 2 := List.Sublist.mem hc (List.takeWhile_sublist _)
      exact ⟨hpred.1.1, hpred.1.2, hpred.2, (hTgood c hmem).2.2⟩
    have hT2shape : T2 = [] ∨ T2.take 1 = ['/'] := by
      rw [hT2def]
      cases hdw : (T.drop 2).dropWhile (fun c => !isNetlocDelim c) with
      | nil => exact Or.inl rfl
      | cons c0 t0 =>
        right
        have hhd : isNetlocDelim c0 = true := by
          have h0 := dropWhile_head_false hdw
          simpa using h0
        have hmem : c0 ∈ T.drop 2 := by
          have h1 : c0 ∈ (T.drop 2).dropWhile (fun c => !isNetlocDelim c) := by
            rw [hdw]
            exact List.mem_cons_self _ _
          exact List.Sublist.mem h1 (List.dropWhile_sublist _)
        have hgood := hTgood c0 hmem
        simp only [isNetlocDelim, Bool.or_eq_true, decide_eq_true_eq] at hhd
        have hslash : c0 = '/' := by
          rcases hhd with h | h
          · rcases h with h | h
            · exact h
            · exact absurd h hgood.1
          · exact absurd h hgood.2.1
        rw [hslash]
        rfl
    refine ⟨n2, T2, ?_, hn2good, ?_⟩
    · intro d
      have hx : urlunsplit ⟨s, n, T, [], []⟩ = s ++ ':' :: '/' :: '/' :: T.drop 2 := by
        rw [hr]
        rw [hshape]
        rfl
      have hsplit := urlsplit_authority _ d s (T.drop 2) hx hs hTgood
      rw [urlparse_eq_split _ d (by rw [hsplit]; exact hsparams), hsplit]
    · intro hn2ne
      have hstab2 : ppStable T2 := by
        rcases hT2shape with h1 | h1
        · rw [h1]; exact ppStable_nil
        · rw [ppStable_iff]
          have hTT : T = ('/' :: '/' :: n2) ++ T2 := by
            rw [List.cons_append, List.cons_append, hsum]
            exact hshape
          have hmm : '/' ∈ T2 := by
            rw [take_one_shape h1]
            exact List.mem_cons_self _ _
          have := ppStable_iff.mp hstab
          rw [hTT, lastSegOf_append _ hmm] at this
          exact this
      refine ⟨hstab2, ?_⟩
      rw [hr, urlunsplit_auth hsne hsnet (Or.inl hn2ne)]
      rw [show (if T2 ≠ [] ∧ T2.take 1 ≠ ['/'] then '/' :: T2 else T2) = T2 from by
        rcases hT2shape with h1 | h1
        · rw [if_neg (fun hand => hand.1 h1)]
        · rw [if_neg (fun hand => hand.2 h1)]]
      rw [hsum]
      rw [← hshape]

theorem urlparse_scheme (x d : List Char) :
    (urlparse x d).scheme = (urlsplit x d).scheme := by
  unfold urlparse
  dsimp only
  by_cases h : (urlsplit x d).scheme ∈ uses_params ∧ ';' ∈ (urlsplit x d).path
  · rw [if_pos h]
  · rw [if_neg h]

theorem urlunparse_joinPP (s n p pa q f : List Char) :
    urlunparse ⟨s, n, p, pa, q, f⟩ = urlunsplit ⟨s, n, joinPP p pa, q, f⟩ := by
  unfold urlunparse joinPP
  dsimp only
  by_cases hpa : pa = []
  · rw [if_neg (fun hcon => hcon hpa), if_pos hpa]
  · rw [if_pos hpa, if_neg hpa]

/-- C6 (counterexample): `normalize_url` is not idempotent.  With
href `" "` and base `"https:.."`, `urljoin` copies the base's
unresolved `".."` path verbatim (the `path=bpath` shortcut), so the
first pass yields `"https:///.."`; re-normalizing that string resolves
the `".."` away, yielding `"https:///"`. -/
theorem normalize_url_not_idempotent_cex :
    normalize_url (s2l " ") (s2l "https:..") = s2l "https:///.."
    ∧ normalize_url (normalize_url (s2l " ") (s2l "https:..")) (s2l "https:..")
        = s2l "https:///"
    ∧ normalize_url (normalize_url (s2l " ") (s2l "https:..")) (s2l "https:..")
        ≠ normalize_url (s2l " ") (s2l "https:..") :=
  ⟨by decide, by decide, by decide⟩

/-- C6 (amended): `normalize_url` is idempotent on every input whose
first normalization is empty or parses back with a non-empty network
location — in particular on every absolute `http(s)://host/...` URL the
scraper actually feeds back into it. -/
theorem normalize_url_idempotent (u b : List Char)
    (h : (urlparse (normalize_url u b) []).netloc ≠ [] ∨ normalize_url u b = []) :
    normalize_url (normalize_url u b) b = normalize_url u b := by
  by_cases hr0 : normalize_url u b = []
  · rw [hr0]
    rfl
  · have hnl : (urlparse (normalize_url u b) []).netloc ≠ [] := h.resolve_right hr0
    by_cases hu0 : u = []
    · refine absurd ?_ hr0
      rw [hu0]
      rfl
    · set r := normalize_url u b with hrdef
      set pr := urlparse (urljoin b u) [] with hprdef
      have hscm : pr.scheme = s2l "http" ∨ pr.scheme = s2l "https" := by
        by_contra hcon
        apply hr0
        rw [hrdef]
        unfold normalize_url
        rw [if_neg hu0]
        dsimp only
        rw [← hprdef, if_neg hcon]
      have hreq : r = urlunsplit ⟨pr.scheme, pr.netloc, joinPP pr.path pr.params, [], []⟩ := by
        rw [hrdef]
        unfold normalize_url
        rw [if_neg hu0]
        dsimp only
        rw [← hprdef, if_pos hscm, urlunparse_joinPP]
      have hp : (urlsplit (urljoin b u) []).scheme ∈ uses_params := by
        rw [← urlparse_scheme, ← hprdef]
        rcases hscm with h1 | h1 <;> rw [h1] <;> decide
      have hgood := urlparse_good (urljoin b u) [] hp
      rw [← hprdef] at hgood
      obtain ⟨n2, T2, hparse, hn2good, hguard⟩ :=
        parse_mkURL pr.scheme pr.netloc (joinPP pr.path pr.params)
          hscm hgood.1 hgood.2.1 hgood.2.2
      have hup : ∀ d, urlparse r d
          = ⟨pr.scheme, n2, (splitPP T2).1, (splitPP T2).2, [], []⟩ := by
        intro d
        rw [hreq]
        exact hparse d
      have hn2ne : n2 ≠ [] := by
        rw [hup []] at hnl
        simpa using hnl
      obtain ⟨hstab2, hunsp⟩ := hguard hn2ne
      have hstab2e : joinPP (splitPP T2).1 (splitPP T2).2 = T2 := hstab2
      have hrr : urlunsplit ⟨pr.scheme, n2, T2, [], []⟩ = r := by
        rw [hunsp, ← hreq]
      have hsnet2 : pr.scheme ∈ uses_netloc := by
        rcases hscm with h1 | h1 <;> rw [h1] <;> decide
      have hj : urljoin b r = r := by
        by_cases hb : b = []
        · rw [hb]
          rfl
        · unfold urljoin
          rw [if_neg hb, if_neg hr0]
          dsimp only
          rw [hup ((urlparse b []).scheme)]
          dsimp only
          by_cases hcond1 : pr.scheme ≠ (urlparse b []).scheme ∨ pr.scheme ∉ uses_relative
          · rw [if_pos hcond1]
          · rw [if_neg hcond1, if_pos ⟨hsnet2, hn2ne⟩, urlunparse_joinPP, hstab2e]
            exact hrr
      unfold normalize_url
      rw [if_neg hr0]
      dsimp only
      rw [hj, hup []]
      dsimp only
      rw [if_pos hscm, urlunparse_joinPP, hstab2e]
      exact hrr

/-- C6 (witness): the amended idempotence theorem applied to the
absolute URL `http://a/b` with an empty base. -/
theorem normalize_url_idempotent_witness :
    ((urlparse (normalize_url (s2l "http://a/b") []) []).netloc ≠ []
        ∨ normalize_url (s2l "http://a/b") [] = [])
    ∧ normalize_url (normalize_url (s2l "http://a/b") []) []
        = normalize_url (s2l "http://a/b") [] :=
  ⟨Or.inl (by decide), normalize_url_idempotent _ _ (Or.inl (by decide))⟩

end Scrape
